import Mathlib

set_option linter.unusedVariables false

/-!
Verification of the gorouter HTTP router (src/router.go).

Modelling conventions:
* Go strings are modelled as lists of characters (`GoStr`).
* Go maps are modelled as association lists whose insertion overwrites an
  existing binding in place.
* Go panics are modelled as explicit outcome values (`MatchRes.panicked`,
  `Outcome.panicked`), with one constructor per program point that can fault.
* The Go standard library `regexp` package (an external collaborator of the
  router) is modelled by an executable parser and leftmost/greedy matcher for
  the regular-expression fragment the router actually generates: literal
  characters, `.`, the classes `[\w]` and `[\d]`, `+`, and non-nested capturing
  groups.  Strings outside this fragment are mapped to the explicit value
  `MatchRes.unmodeled` (never produced by the patterns studied here).
-/

/-- A Go string, modelled as its list of characters. -/
abbrev GoStr := List Char

/-- Model of Go `strings.Split` with a one-character separator: splits on
every occurrence of the separator; `Split("", sep) = [""]`. -/
def splitChar (sep : Char) : GoStr → List GoStr
  | [] => [[]]
  | c :: cs =>
    if c = sep then [] :: splitChar sep cs
    else
      match splitChar sep cs with
      | t :: ts => (c :: t) :: ts
      | [] => [[c]]

/-- RE2 word character `[\w]`, i.e. `[0-9A-Za-z_]` (ASCII). -/
def isWordChar (c : Char) : Bool := c.isAlphanum || c = '_'

/-- A single-character regular-expression atom. -/
inductive CAtom
  | lit (c : Char)
  | dot
  | word
  | digit
  deriving DecidableEq, Repr

/-- Whether the atom matches a character (RE2 semantics; `.` excludes
newline by default). -/
def CAtom.mch : CAtom → Char → Bool
  | .lit c, x => x = c
  | .dot, x => x ≠ '\n'
  | .word, x => isWordChar x
  | .digit, x => x.isDigit

/-- Contents of a capturing group in the modelled regex fragment: either a
single atom under `+`, or a plain sequence of atoms. -/
inductive GFrag
  | plusA (a : CAtom)
  | seqA (atoms : List CAtom)
  deriving DecidableEq, Repr

/-- A token of a compiled regular expression: a single atom, an atom under
`+`, or a capturing group. -/
inductive Tok
  | one (a : CAtom)
  | plus (a : CAtom)
  | grp (f : GFrag)
  deriving DecidableEq, Repr

/-- RE2 metacharacters: characters that do not stand for themselves. -/
def metaChars : List Char :=
  ['\\', '(', ')', '[', ']', '{', '}', '+', '*', '?', '.', '|', '^', '$']

/-- Whether a character is an RE2 metacharacter. -/
def isMeta (c : Char) : Bool := metaChars.contains c

/-- Parse one single-character atom of the modelled regex fragment,
returning the atom and the remaining input. -/
def parseAtom? : GoStr → Option (CAtom × GoStr)
  | [] => none
  | c :: rest =>
    if c = '.' then some (.dot, rest)
    else if c = '[' then
      match rest with
      | '\\' :: 'w' :: ']' :: r2 => some (.word, r2)
      | '\\' :: 'd' :: ']' :: r2 => some (.digit, r2)
      | _ => none
    else if isMeta c then none
    else some (.lit c, rest)

/-- Parse a plain sequence of atoms (no quantifiers, no groups); fuelled,
with one unit of fuel per atom. -/
def parseAtomSeqF : Nat → GoStr → Option (List CAtom)
  | _, [] => some []
  | 0, _ :: _ => none
  | f + 1, s =>
    match parseAtom? s with
    | some (a, rest) => (parseAtomSeqF f rest).map (a :: ·)
    | none => none

/-- Parse the contents of a capturing group: either `atom+` or a plain
atom sequence. -/
def parseGFrag (s : GoStr) : Option GFrag :=
  match parseAtom? s with
  | some (a, ['+']) => some (.plusA a)
  | _ => (parseAtomSeqF s.length s).map .seqA

/-- Parse a regex of the modelled fragment into tokens; fuelled, with one
unit of fuel per token.  Nested groups and quantified groups are outside
the modelled fragment. -/
def parseToksF : Nat → GoStr → Option (List Tok)
  | _, [] => some []
  | 0, _ :: _ => none
  | f + 1, c :: rest =>
    if c = '(' then
      let inner := rest.takeWhile (· ≠ ')')
      match rest.drop inner.length with
      | ')' :: rest2 =>
        match parseGFrag inner with
        | none => none
        | some frag =>
          match rest2 with
          | '+' :: _ => none
          | _ => (parseToksF f rest2).map (.grp frag :: ·)
      | _ => none
    else
      match parseAtom? (c :: rest) with
      | none => none
      | some (a, rest') =>
        match rest' with
        | '+' :: rest2 => (parseToksF f rest2).map (.plus a :: ·)
        | _ => (parseToksF f rest').map (.one a :: ·)

/-- Parse a regex string of the modelled fragment into tokens. -/
def parseRegex (s : GoStr) : Option (List Tok) := parseToksF s.length s

/-- Match a plain sequence of atoms against the front of the input,
returning the consumed prefix and the remaining input. -/
def matchAtoms : List CAtom → GoStr → Option (GoStr × GoStr)
  | [], s => some ([], s)
  | _ :: _, [] => none
  | a :: as, c :: cs =>
    if a.mch c then (matchAtoms as cs).map (fun p => (c :: p.1, p.2)) else none

/-- Length of the longest prefix of `s` consisting of characters matched
by the atom `a`. -/
def munchLen (a : CAtom) (s : GoStr) : Nat := (s.takeWhile a.mch).length

/-- Greedy search for the repetition count of a `+`: try consuming `k`
characters, then `k - 1`, ..., down to `1`; `cont` matches the rest of the
regex against the rest of the input.  `cap` tells whether the consumed
characters form a capture. -/
def plusTry (cont : GoStr → Option (GoStr × List GoStr)) (cap : Bool) :
    Nat → GoStr → Option (GoStr × List GoStr)
  | 0, _ => none
  | k + 1, s =>
    match cont (s.drop (k + 1)) with
    | some (u, gs) =>
      some (s.take (k + 1) ++ u, if cap then s.take (k + 1) :: gs else gs)
    | none => plusTry cont cap k s

/-- Match a token list against the front of the input with leftmost-first
(greedy) preference, returning the consumed prefix and the list of group
captures, like RE2 matching at a fixed position. -/
def matchToks : List Tok → GoStr → Option (GoStr × List GoStr)
  | [], _ => some ([], [])
  | .one _ :: _, [] => none
  | .one a :: ts, c :: cs =>
    if a.mch c then (matchToks ts cs).map (fun p => (c :: p.1, p.2)) else none
  | .plus a :: ts, s => plusTry (fun s' => matchToks ts s') false (munchLen a s) s
  | .grp (.plusA a) :: ts, s => plusTry (fun s' => matchToks ts s') true (munchLen a s) s
  | .grp (.seqA as) :: ts, s =>
    match matchAtoms as s with
    | none => none
    | some (g, rest) => (matchToks ts rest).map (fun p => (g ++ p.1, g :: p.2))

/-- Model of Go `regexp.FindSubmatch`: try each start position from the
left; at the first position admitting a match return the matched substring
and the group captures. -/
def findFrom (ts : List Tok) : GoStr → Option (GoStr × List GoStr)
  | [] => matchToks ts []
  | c :: cs =>
    match matchToks ts (c :: cs) with
    | some r => some r
    | none => findFrom ts cs

/-- Association-list model of a Go `map[string]string`: assignment
overwrites an existing binding in place, otherwise appends. -/
def mapSet (m : List (GoStr × GoStr)) (k v : GoStr) : List (GoStr × GoStr) :=
  match m with
  | [] => [(k, v)]
  | (k', v') :: rest => if k' = k then (k, v) :: rest else (k', v') :: mapSet rest k v

/-- Lookup in the association-list model of a Go map. -/
def lookupP (m : List (GoStr × GoStr)) (k : GoStr) : Option GoStr :=
  match m with
  | [] => none
  | (k', v') :: rest => if k' = k then some v' else lookupP rest k

/-- Route-parameter map (`paramsMapType` in the source). -/
abbrev ParamsMap := List (GoStr × GoStr)

/-- The loop `for k, v := range subMatch { matchParams[matchName[k]] = v }`
of `matchAndParse`: pairs captures with parameter names positionally;
`none` models the index-out-of-range panic when there are more captures
than names. -/
def assignParams : List GoStr → List GoStr → ParamsMap → Option ParamsMap
  | _, [], acc => some acc
  | [], _ :: _, _ => none
  | n :: ns, g :: gs, acc => assignParams ns gs (mapSet acc n g)

/-- `defaultPattern` from the source: the word-class regex fragment. -/
def defaultPattern : GoStr := "[\\w]+".toList

/-- `idPattern` from the source: the digit-class regex fragment. -/
def idPattern : GoStr := "[\\d]+".toList

/-- `idKey` from the source. -/
def idKey : GoStr := "id".toList

/-- The per-segment pattern-compilation loop of `Router.matchAndParse`
(src/router.go lines 236–266), run over the `/`-split of the route path.
Accumulates the parameter-name list `matchName` and the regex string
`sTemp`; `none` models the `res[1]` index-out-of-range panic on a braced
segment whose interior has no `:`. -/
def compileLoop : List GoStr → List GoStr → GoStr → Option (List GoStr × GoStr)
  | [], names, sTemp => some (names, sTemp)
  | str :: rest, names, sTemp =>
    match str with
    | [] => compileLoop rest names sTemp
    | c0 :: cs =>
      if c0 = '{' ∧ (c0 :: cs).getLastD ' ' = '}' then
        let matchStr := cs.dropLast
        match splitChar ':' matchStr with
        | r0 :: r1 :: _ =>
          compileLoop rest (names ++ [r0]) (sTemp ++ '/' :: '(' :: r1 ++ [')'])
        | _ => none
      else if c0 = ':' then
        match splitChar ':' (c0 :: cs) with
        | _ :: r1 :: _ =>
          if r1 = idKey then
            compileLoop rest (names ++ [r1]) (sTemp ++ '/' :: '(' :: idPattern ++ [')'])
          else
            compileLoop rest (names ++ [r1]) (sTemp ++ '/' :: '(' :: defaultPattern ++ [')'])
        | _ => none
      else
        compileLoop rest names (sTemp ++ '/' :: (c0 :: cs))

/-- Pattern compilation performed by `Router.matchAndParse`: split the
route path on `/` and run the segment loop. -/
def compileRoute (path : GoStr) : Option (List GoStr × GoStr) :=
  compileLoop (splitChar '/' path) [] []

/-- Result of `Router.matchAndParse`: Go's `(paramsMapType, bool)` return,
plus `panicked` for the runtime panics inside the function and `unmodeled`
for regex strings outside the modelled `regexp` fragment. -/
inductive MatchRes
  | matched (m : ParamsMap)
  | noMatch
  | panicked
  | unmodeled
  deriving DecidableEq, Repr

/-- `Router.matchAndParse` (src/router.go lines 226–284): compile the route
path to a regex string, run `FindSubmatch` on the request URL, and accept
only if the full matched span equals the whole request URL. -/
def matchAndParse (requestUrl path : GoStr) : MatchRes :=
  match compileRoute path with
  | none => .panicked
  | some (matchName, pattern) =>
    match parseRegex pattern with
    | none => .unmodeled
    | some toks =>
      match findFrom toks requestUrl with
      | none => .noMatch
      | some (full, groups) =>
        if full = requestUrl then
          match assignParams matchName groups [] with
          | none => .panicked
          | some m => .matched m
        else .noMatch

/-- `Router.Match` (src/router.go lines 220–223). -/
def routerMatch (requestUrl path : GoStr) : Bool :=
  match matchAndParse requestUrl path with
  | .matched _ => true
  | _ => false

/-- A registered route as stored in a tree node: the registered path, the
(possibly nil) handler, and the middleware snapshot taken at registration.
Handlers and middleware are opaque values of types `H` and `M`. -/
structure RouteRec (H M : Type) where
  path : GoStr
  handle : Option H
  middleware : List M
  deriving DecidableEq

/-- Modelled from the spec: the route tree (`tree.go` is not under `src/`).
Per §4.2 the tree stores registered routes and serves two lookup modes; we
keep the routes in registration order. -/
abbrev TreeM (H M : Type) := List (RouteRec H M)

/-- Whether a registered path is pattern-free (purely static).  Modelled
from the spec (§4.2): a path is parameterized when it uses `:name` or
`{name:regex}` placeholder syntax. -/
def isStaticPath (p : GoStr) : Bool := !(p.contains ':' || p.contains '{')

/-- First static path segment of a registered path (the spec's depth-1
bucket key, §4.2). -/
def firstSeg (p : GoStr) : GoStr := (((splitChar '/' p).filter (· ≠ [])).headD [])

/-- Modelled from the spec: `Tree.Add` (§4.2).  Registration appends the
route in order; per the §9 design note, the reference implementation
performs no pattern compilation or validation at registration time (regexes
are compiled at request time inside `matchAndParse`), so `Add` records the
route unconditionally. -/
def treeAdd (t : TreeM H M) (path : GoStr) (h : H) (mw : List M) : TreeM H M :=
  t ++ [⟨path, some h, mw⟩]

/-- Modelled from the spec: exact-mode lookup (§4.2, §4.3 step 2): the (at
most one, last registered) pattern-free route whose full path equals the
key, with a fallback on the key with a single leading `/` stripped. -/
def treeFindExact (t : TreeM H M) (key : GoStr) : List (RouteRec H M) :=
  match (t.filter (fun r => isStaticPath r.path && r.path = key)).getLast? with
  | some r => [r]
  | none =>
    match key with
    | '/' :: k' =>
      match (t.filter (fun r => isStaticPath r.path && r.path = k')).getLast? with
      | some r => [r]
      | none => []
    | _ => []

/-- Modelled from the spec: `Tree.Find` (§4.2): mode 0 is the exact lookup,
mode 1 returns all routes bucketed under the given first segment, in
registration order. -/
def treeFind (t : TreeM H M) (key : GoStr) (mode : Nat) : List (RouteRec H M) :=
  if mode = 0 then treeFindExact t key
  else t.filter (fun r => firstSeg r.path = key)

/-- The five entries of the `methods` map in the source. -/
def validMethod (m : GoStr) : Bool :=
  m = "GET".toList || m = "POST".toList || m = "PUT".toList ||
  m = "DELETE".toList || m = "PATCH".toList

/-- The `Router` struct (src/router.go lines 29–39); `pfx` models the
`prefix` field, and `panicHandler` records whether a `PanicHandler` is
installed. -/
structure RouterM (H M : Type) where
  pfx : GoStr
  middleware : List M
  trees : List (GoStr × TreeM H M)
  notFound : Option H
  panicHandler : Bool
  deriving DecidableEq

/-- `New()` (src/router.go lines 43–47). -/
def newRouter : RouterM H M := ⟨[], [], [], none, false⟩

/-- Assoc-list lookup for the `trees` map. -/
def lookupTree (ts : List (GoStr × TreeM H M)) (k : GoStr) : Option (TreeM H M) :=
  match ts with
  | [] => none
  | (k', t) :: rest => if k' = k then some t else lookupTree rest k

/-- Assoc-list overwrite-or-append for the `trees` map. -/
def setTree (ts : List (GoStr × TreeM H M)) (k : GoStr) (t : TreeM H M) :
    List (GoStr × TreeM H M) :=
  match ts with
  | [] => [(k, t)]
  | (k', t') :: rest => if k' = k then (k, t) :: rest else (k', t') :: setTree rest k t

/-- `Router.Handle` (src/router.go lines 94–110): panics (`none`) on an
unsupported method; otherwise creates the method tree if needed, prepends
`prefix + "/"` when the router has a group prefix, and adds the route with
the router's current middleware snapshot. -/
def handleReg (router : RouterM H M) (method path : GoStr) (h : H) :
    Option (RouterM H M) :=
  if validMethod method then
    let tree := (lookupTree router.trees method).getD []
    let path' := if router.pfx ≠ [] then router.pfx ++ '/' :: path else path
    some { router with trees := setTree router.trees method (treeAdd tree path' h router.middleware) }
  else none

/-- `Router.Use` (src/router.go lines 195–199): appends middleware to the
stack. -/
def useMw (router : RouterM H M) (mws : List M) : RouterM H M :=
  if mws.length > 0 then { router with middleware := router.middleware ++ mws }
  else router

/-- `Router.Group` (src/router.go lines 80–86). -/
def groupRouter (router : RouterM H M) (p : GoStr) : RouterM H M :=
  { pfx := p, middleware := router.middleware, trees := router.trees,
    notFound := none, panicHandler := false }

/-- The distinct runtime faults (Go panics) that dispatch can raise, one
constructor per program point. -/
inductive GoErr
  | methodNotRegistered   -- src/router.go line 149
  | sliceOOR              -- `requestUrl[1:]` on an empty URL, line 163
  | splitIndexOOR         -- `res[1]` after the unguarded split, line 172
  | matchIndexOOR         -- the index panics inside `matchAndParse`
  deriving DecidableEq, Repr

/-- Observable outcome of one `ServeHTTP` dispatch: which handler was
invoked with which middleware snapshot and parameter context, a not-found
response, a propagated panic, or a panic intercepted by the `PanicHandler`.
The parameter context is `none` when dispatch never stored params in the
request context. -/
inductive Outcome (H M : Type)
  | served (h : H) (mw : List M) (params : Option ParamsMap)
  | notFoundCustom (h : H) (mw : List M)
  | notFoundDefault
  | panicked (e : GoErr)
  | panicHandled (e : GoErr)
  | unmodeled
  deriving DecidableEq, Repr

/-- `Router.HandleNotFound` (src/router.go lines 202–208), called with the
router's middleware (line 191). -/
def notFoundOutcome (router : RouterM H M) : Outcome H M :=
  match router.notFound with
  | some h => .notFoundCustom h router.middleware
  | none => .notFoundDefault

/-- The candidate loop of `ServeHTTP` (src/router.go lines 176–188): try
each first-segment candidate in registration order, skipping nil handlers
and the candidate whose literal path equals the request URL. -/
def dispatchCandidates (router : RouterM H M) (requestUrl : GoStr) :
    List (RouteRec H M) → Outcome H M
  | [] => notFoundOutcome router
  | node :: rest =>
    match node.handle with
    | some h =>
      if node.path ≠ requestUrl then
        match matchAndParse requestUrl node.path with
        | .matched m => .served h node.middleware (some m)
        | .noMatch => dispatchCandidates router requestUrl rest
        | .panicked => .panicked .matchIndexOOR
        | .unmodeled => .unmodeled
      else dispatchCandidates router requestUrl rest
    | none => dispatchCandidates router requestUrl rest

/-- The body of `Router.ServeHTTP` (src/router.go lines 137–192), without
the deferred panic recovery: exact lookup first (with the leading-slash
fallback), then the first-segment candidate scan, then not-found. -/
def serveCore (router : RouterM H M) (method requestUrl : GoStr) : Outcome H M :=
  match lookupTree router.trees method with
  | none => .panicked .methodNotRegistered
  | some tree =>
    match treeFind tree requestUrl 0 with
    | node :: _ =>
      match node.handle with
      | some h =>
        if node.path = requestUrl then .served h node.middleware none
        else if requestUrl = [] then .panicked .sliceOOR
        else if node.path = requestUrl.drop 1 then .served h node.middleware none
        else notFoundOutcome router
      | none => notFoundOutcome router
    | [] =>
      match (splitChar '/' requestUrl).get? 1 with
      | none => .panicked .splitIndexOOR
      | some seg1 => dispatchCandidates router requestUrl (treeFind tree seg1 1)

/-- `Router.ServeHTTP` (src/router.go lines 137–192): the dispatch body
wrapped in the deferred `recover` that forwards any panic to the
`PanicHandler` when one is installed. -/
def serveHTTP (router : RouterM H M) (method requestUrl : GoStr) : Outcome H M :=
  match serveCore router method requestUrl with
  | .panicked e => if router.panicHandler then .panicHandled e else .panicked e
  | o => o

/-- `GetAllParams` (src/router.go lines 127–134): the request-context value
is `some m` when dispatch stored a params map, `none` otherwise (the Go
type assertion then fails and the function returns nil). -/
def getAllParams (ctxParams : Option ParamsMap) : Option ParamsMap := ctxParams

/-- `GetParam` (src/router.go lines 113–115): indexing a Go map returns the
zero value (the empty string) when the key is absent or the map is nil. -/
def getParam (ctxParams : Option ParamsMap) (key : GoStr) : GoStr :=
  match getAllParams ctxParams with
  | none => []
  | some m => (lookupP m key).getD []

/-- The middleware-composition loop of `handle` (src/router.go lines
211–217): fold the stored middleware list over the terminal handler, each
entry wrapping the handler composed so far. -/
def handleChain {α : Type} (handler : α) (middleware : List (α → α)) : α :=
  middleware.foldl (fun acc m => m acc) handler

/-! ### Basic lemmas about the string-splitting model -/

theorem splitChar_ne_nil (sep : Char) (l : GoStr) : splitChar sep l ≠ [] := by
  induction l with
  | nil => simp [splitChar]
  | cons c cs ih =>
    simp only [splitChar]
    split
    · simp
    · split
      · simp
      · simp

theorem splitChar_no_sep {sep : Char} {l : GoStr} (h : sep ∉ l) :
    splitChar sep l = [l] := by
  induction l with
  | nil => rfl
  | cons c cs ih =>
    simp only [List.mem_cons, not_or] at h
    simp only [splitChar]
    rw [if_neg (fun hc => h.1 hc.symm), ih h.2]

theorem splitChar_cons_sep (sep : Char) (l : GoStr) :
    splitChar sep (sep :: l) = [] :: splitChar sep l := by
  simp [splitChar]

theorem splitChar_append_sep {sep : Char} {l₁ : GoStr} (l₂ : GoStr) (h : sep ∉ l₁) :
    splitChar sep (l₁ ++ sep :: l₂) = l₁ :: splitChar sep l₂ := by
  induction l₁ with
  | nil => simp [splitChar_cons_sep]
  | cons c cs ih =>
    simp only [List.mem_cons, not_or] at h
    simp only [List.cons_append, splitChar]
    rw [if_neg (fun hc => h.1 hc.symm)]
    simp only [List.append_eq]
    rw [ih h.2]

/-! ### Compilation of braced parameter segments -/

/-- Compiling a one-segment braced pattern `/{mid}` reduces to splitting the
brace interior on `:` and keeping the first two pieces. -/
theorem compileRoute_braced (mid : GoStr) (h : '/' ∉ mid) :
    compileRoute ('/' :: '{' :: (mid ++ ['}'])) =
      (match splitChar ':' mid with
       | _ :: r1 :: _ => some ([(splitChar ':' mid).headD []], '/' :: '(' :: (r1 ++ [')']))
       | _ => none) := by
  have hseg : '/' ∉ ('{' :: (mid ++ ['}']) : GoStr) := by
    intro hc
    rcases List.mem_cons.1 hc with h1 | h2
    · exact absurd h1 (by decide)
    · rcases List.mem_append.1 h2 with h3 | h4
      · exact h h3
      · exact absurd h4 (by decide)
  have hlast : (('{' :: (mid ++ ['}']) : GoStr)).getLastD ' ' = '}' := by
    rw [← List.cons_append]
    exact List.getLastD_concat _ _ _
  simp only [compileRoute, splitChar_cons_sep, splitChar_no_sep hseg]
  simp only [compileLoop]
  rw [if_pos ⟨trivial, hlast⟩]
  rw [List.dropLast_concat]
  rcases hsp : splitChar ':' mid with _ | ⟨r0, _ | ⟨r1, rest⟩⟩
  · rfl
  · rfl
  · simp [compileLoop]

/-- C10: for a braced parameter segment `{name:fragment}` whose fragment
contains a further `:`, compilation keeps only the text between the first
and second colon as the capture pattern and silently drops the remainder,
so `{x:a:b}` compiles to the same matcher as `{x:a}` and matches the same
requests. -/
theorem claim10_braced_colon_truncation (n a b url : GoStr)
    (hn : ':' ∉ n) (ha : ':' ∉ a) (hn' : '/' ∉ n) (ha' : '/' ∉ a) (hb' : '/' ∉ b) :
    compileRoute ('/' :: '{' :: ((n ++ (':' :: (a ++ (':' :: b)))) ++ ['}'])) =
      compileRoute ('/' :: '{' :: ((n ++ (':' :: a)) ++ ['}'])) ∧
    matchAndParse url ('/' :: '{' :: ((n ++ (':' :: (a ++ (':' :: b)))) ++ ['}'])) =
      matchAndParse url ('/' :: '{' :: ((n ++ (':' :: a)) ++ ['}'])) := by
  have hm1 : '/' ∉ (n ++ (':' :: (a ++ (':' :: b))) : GoStr) := by
    intro hc
    rcases List.mem_append.1 hc with h1 | h2
    · exact hn' h1
    · rcases List.mem_cons.1 h2 with h3 | h4
      · exact absurd h3 (by decide)
      · rcases List.mem_append.1 h4 with h5 | h6
        · exact ha' h5
        · rcases List.mem_cons.1 h6 with h7 | h8
          · exact absurd h7 (by decide)
          · exact hb' h8
  have hm2 : '/' ∉ (n ++ (':' :: a) : GoStr) := by
    intro hc
    rcases List.mem_append.1 hc with h1 | h2
    · exact hn' h1
    · rcases List.mem_cons.1 h2 with h3 | h4
      · exact absurd h3 (by decide)
      · exact ha' h4
  have hs1 : splitChar ':' (n ++ (':' :: (a ++ (':' :: b)))) = n :: a :: splitChar ':' b := by
    rw [splitChar_append_sep _ hn, splitChar_append_sep _ ha]
  have hs2 : splitChar ':' (n ++ (':' :: a)) = n :: [a] := by
    rw [splitChar_append_sep _ hn, splitChar_no_sep ha]
  have hc1 := compileRoute_braced (n ++ (':' :: (a ++ (':' :: b)))) hm1
  have hc2 := compileRoute_braced (n ++ (':' :: a)) hm2
  rw [hs1] at hc1
  rw [hs2] at hc2
  refine ⟨hc1.trans hc2.symm, ?_⟩
  simp only [matchAndParse]
  rw [hc1.trans hc2.symm]

/-- Witness for C10 at `{x:a:b}` vs `{x:a}` on request `/a`. -/
theorem claim10_witness :
    (':' ∉ (['x'] : GoStr)) ∧ (':' ∉ (['a'] : GoStr)) ∧ ('/' ∉ (['x'] : GoStr)) ∧
    ('/' ∉ (['a'] : GoStr)) ∧ ('/' ∉ (['b'] : GoStr)) ∧
    (compileRoute ('/' :: '{' :: ((['x'] ++ (':' :: (['a'] ++ (':' :: ['b'])))) ++ ['}'])) =
        compileRoute ('/' :: '{' :: ((['x'] ++ (':' :: ['a'])) ++ ['}'])) ∧
      matchAndParse ['/', 'a'] ('/' :: '{' :: ((['x'] ++ (':' :: (['a'] ++ (':' :: ['b'])))) ++ ['}'])) =
        matchAndParse ['/', 'a'] ('/' :: '{' :: ((['x'] ++ (':' :: ['a'])) ++ ['}']))) :=
  ⟨by decide, by decide, by decide, by decide, by decide,
    claim10_braced_colon_truncation ['x'] ['a'] ['b'] ['/', 'a']
      (by decide) (by decide) (by decide) (by decide) (by decide)⟩

/-! ### C6: dispatch on an unregistered method -/

/-- C6: a request for an HTTP method with no registered routes raises the
unregistered-method fault (never a soft 404); when a `PanicHandler` is
installed it receives the fault value and the request counts as handled,
otherwise the panic propagates. -/
theorem claim6_unregistered_method {H M : Type} (router : RouterM H M)
    (method url : GoStr) (h : lookupTree router.trees method = none) :
    serveHTTP router method url =
      (if router.panicHandler then Outcome.panicHandled .methodNotRegistered
       else Outcome.panicked .methodNotRegistered) := by
  simp only [serveHTTP, serveCore, h]

/-- Witness for C6: a fresh router has no GET tree; dispatch panics with the
unregistered-method fault without a `PanicHandler` and hands the fault to
the `PanicHandler` when one is installed. -/
theorem claim6_witness :
    (lookupTree (newRouter (H := Nat) (M := Unit)).trees ("GET".toList) = none ∧
      serveHTTP (newRouter (H := Nat) (M := Unit)) ("GET".toList) ("/".toList) =
        Outcome.panicked .methodNotRegistered) ∧
    (lookupTree ({ newRouter (H := Nat) (M := Unit) with panicHandler := true }).trees
        ("GET".toList) = none ∧
      serveHTTP ({ newRouter (H := Nat) (M := Unit) with panicHandler := true })
        ("GET".toList) ("/".toList) = Outcome.panicHandled .methodNotRegistered) :=
  ⟨⟨rfl, claim6_unregistered_method _ _ _ rfl⟩,
   ⟨rfl, claim6_unregistered_method _ _ _ rfl⟩⟩

/-! ### C7: middleware composition order -/

/-- Instrumented handler type used to observe execution order: a function
from the event trace so far to the final trace. -/
abbrev TraceFn := List Nat → List Nat

/-- Terminal handler `H`: records event 0 on entry. -/
def traceH : TraceFn := fun t => t ++ [0]

/-- Middleware `A`: records event 1 on entry, then calls the wrapped
handler. -/
def traceA : TraceFn → TraceFn := fun g t => g (t ++ [1])

/-- Middleware `B`: records event 2 on entry, then calls the wrapped
handler. -/
def traceB : TraceFn → TraceFn := fun g t => g (t ++ [2])

/-- C7: the `handle` loop makes the last-appended middleware the outermost
wrapper; concretely, after `Use(A); Use(B)` the observed entry order is
`B` (event 2), then `A` (event 1), then the terminal handler (event 0). -/
theorem claim7_middleware_order :
    (∀ (α : Type) (h : α) (mws : List (α → α)) (m : α → α),
        handleChain h (mws ++ [m]) = m (handleChain h mws)) ∧
    (∀ (r : RouterM Nat (TraceFn → TraceFn)) (A B : TraceFn → TraceFn),
        (useMw (useMw r [A]) [B]).middleware = r.middleware ++ [A, B]) ∧
    handleChain traceH
        ((useMw (useMw (newRouter (H := Nat) (M := TraceFn → TraceFn)) [traceA]) [traceB]).middleware)
        [] = [2, 1, 0] := by
  refine ⟨?_, ?_, rfl⟩
  · intro α h mws m
    simp [handleChain]
  · intro r A B
    simp [useMw, List.append_assoc]

/-! ### C1: when the malformed-pattern fault fires -/

/-- Compiling any route pattern containing the braced segment `{n}` with no
`:` in the interior panics (the `res[1]` index-out-of-range in
`matchAndParse`), for every request URL, i.e. at request time. -/
theorem matchAndParse_braced_no_colon (n url : GoStr) (hn : ':' ∉ n) (hn' : '/' ∉ n) :
    matchAndParse url ('/' :: '{' :: (n ++ ['}'])) = .panicked := by
  have h := compileRoute_braced n hn'
  rw [splitChar_no_sep hn] at h
  simp only [matchAndParse, h]

/-- C1 (amended): the malformed-route error for a braced token missing its
`:` separator is raised at request time, inside the pattern compilation
performed by `matchAndParse` during dispatch, for every request URL; the
registration call (`Handle`/`Add`) performs no pattern validation and
accepts the malformed pattern. -/
theorem claim1_amended_requesttime_fault (n url : GoStr)
    (hn : ':' ∉ n) (hn' : '/' ∉ n) :
    matchAndParse url ('/' :: '{' :: (n ++ ['}'])) = .panicked ∧
    (handleReg (newRouter (H := Nat) (M := Unit)) ("GET".toList)
        ('/' :: '{' :: (n ++ ['}'])) 0).isSome = true := by
  refine ⟨matchAndParse_braced_no_colon n url hn hn', ?_⟩
  simp [handleReg, validMethod]

/-- Witness for the amended C1 at pattern `/{name}` and request `/x`. -/
theorem claim1_amended_witness :
    (':' ∉ ("name".toList : GoStr)) ∧ ('/' ∉ ("name".toList : GoStr)) ∧
    (matchAndParse ("/x".toList) ('/' :: '{' :: ("name".toList ++ ['}'])) = .panicked ∧
      (handleReg (newRouter (H := Nat) (M := Unit)) ("GET".toList)
          ('/' :: '{' :: ("name".toList ++ ['}'])) 0).isSome = true) :=
  ⟨by decide, by decide,
    claim1_amended_requesttime_fault "name".toList "/x".toList (by decide) (by decide)⟩

/-- C1 counterexample: the route `/x/{name}` (braced token missing `:`) is
accepted by registration without any error, and dispatching the matching
request `/x/foo` then panics at request time — the malformed-route error is
NOT raised during `Handle`/`Add` and IS raised during dispatch. -/
theorem claim1_counterexample :
    (handleReg (newRouter (H := Nat) (M := Unit)) ("GET".toList)
        ("/x/".toList ++ '{' :: ("name".toList ++ ['}'])) 0).isSome = true ∧
    serveHTTP
        ((handleReg (newRouter (H := Nat) (M := Unit)) ("GET".toList)
            ("/x/".toList ++ '{' :: ("name".toList ++ ['}'])) 0).getD
          (newRouter (H := Nat) (M := Unit)))
        ("GET".toList) ("/x/foo".toList) = Outcome.panicked .matchIndexOOR := by
  constructor
  · decide
  · decide

/-! ### C2: the unguarded split in `ServeHTTP` -/

theorem splitChar_length_pos (sep : Char) (l : GoStr) :
    1 ≤ (splitChar sep l).length := by
  cases h : splitChar sep l with
  | nil => exact absurd h (splitChar_ne_nil sep l)
  | cons t ts => simp

theorem splitChar_length_ge_two {sep : Char} {l : GoStr} (h : sep ∈ l) :
    2 ≤ (splitChar sep l).length := by
  induction l with
  | nil => cases h
  | cons c cs ih =>
    simp only [splitChar]
    by_cases hc : c = sep
    · rw [if_pos hc]
      have := splitChar_length_pos sep cs
      simp only [List.length_cons]
      omega
    · rw [if_neg hc]
      have hmem : sep ∈ cs := by
        rcases List.mem_cons.1 h with h1 | h2
        · exact absurd h1.symm hc
        · exact h2
      have h2 := ih hmem
      cases hsp : splitChar sep cs with
      | nil => exact absurd hsp (splitChar_ne_nil sep cs)
      | cons t ts =>
        rw [hsp] at h2
        simp only [List.length_cons] at h2 ⊢
        omega

theorem dispatchCandidates_panicked_inv {H M : Type} (router : RouterM H M)
    (url : GoStr) :
    ∀ (l : List (RouteRec H M)) (e : GoErr),
      dispatchCandidates router url l = .panicked e → e = .matchIndexOOR := by
  intro l
  induction l with
  | nil =>
    intro e he
    unfold dispatchCandidates notFoundOutcome at he
    split at he <;> simp at he
  | cons node rest ih =>
    intro e he
    unfold dispatchCandidates at he
    split at he
    · split at he
      · split at he
        · simp at he
        · exact ih e he
        · injection he with h1; exact h1.symm
        · simp at he
      · exact ih e he
    · exact ih e he

theorem dispatchCandidates_ne_panicHandled {H M : Type} (router : RouterM H M)
    (url : GoStr) :
    ∀ (l : List (RouteRec H M)) (e : GoErr),
      dispatchCandidates router url l ≠ .panicHandled e := by
  intro l
  induction l with
  | nil =>
    intro e he
    unfold dispatchCandidates notFoundOutcome at he
    split at he <;> simp at he
  | cons node rest ih =>
    intro e he
    unfold dispatchCandidates at he
    split at he
    · split at he
      · split at he
        · simp at he
        · exact ih e he
        · simp at he
        · simp at he
      · exact ih e he
    · exact ih e he

theorem serveCore_no_splitIndex {H M : Type} (router : RouterM H M)
    (method url : GoStr) (h : '/' ∈ url) :
    serveCore router method url ≠ .panicked .splitIndexOOR := by
  intro hx
  unfold serveCore at hx
  split at hx
  · simp at hx
  · split at hx
    · split at hx
      · split at hx
        · simp at hx
        · split at hx
          · simp at hx
          · split at hx
            · simp at hx
            · unfold notFoundOutcome at hx
              split at hx <;> simp at hx
      · unfold notFoundOutcome at hx
        split at hx <;> simp at hx
    · rename_i heq
      split at hx
      · rename_i hnone
        have hlen := splitChar_length_ge_two h
        rcases hsp : splitChar '/' url with _ | ⟨a, _ | ⟨b, pieces⟩⟩
        · exact absurd hsp (splitChar_ne_nil '/' url)
        · rw [hsp] at hlen; simp at hlen
        · rw [hsp] at hnone; simp at hnone
      · exact absurd (dispatchCandidates_panicked_inv router url _ _ hx) (by decide)

theorem serveCore_ne_panicHandled {H M : Type} (router : RouterM H M)
    (method url : GoStr) (e : GoErr) :
    serveCore router method url ≠ .panicHandled e := by
  intro hx
  unfold serveCore at hx
  split at hx
  · simp at hx
  · split at hx
    · split at hx
      · split at hx
        · simp at hx
        · split at hx
          · simp at hx
          · split at hx
            · simp at hx
            · unfold notFoundOutcome at hx
              split at hx <;> simp at hx
      · unfold notFoundOutcome at hx
        split at hx <;> simp at hx
    · split at hx
      · simp at hx
      · exact dispatchCandidates_ne_panicHandled router url _ _ hx

/-- C2 (amended): for every request path containing at least one `/` — in
particular the path `/` and every path with an empty first segment — the
split of the path yields at least two pieces, so dispatch never raises the
`res[1]` index-out-of-range fault of the candidate branch; there is no
explicit guard in the code, and the empty request path does raise that
fault (see the counterexample). -/
theorem claim2_amended_slash_paths_safe {H M : Type} (router : RouterM H M)
    (method url : GoStr) (h : '/' ∈ url) :
    serveHTTP router method url ≠ .panicked .splitIndexOOR ∧
    serveHTTP router method url ≠ .panicHandled .splitIndexOOR := by
  constructor <;> intro hx <;> unfold serveHTTP at hx <;> split at hx
  · rename_i e hs
    split at hx
    · simp at hx
    · rw [hx] at hs
      exact serveCore_no_splitIndex router method url h hs
  · rename_i hs hno
    exact serveCore_no_splitIndex router method url h hx
  · rename_i e hs
    split at hx
    · injection hx with hx1
      rw [hx1] at hs
      exact serveCore_no_splitIndex router method url h hs
    · simp at hx
  · rename_i hs hno
    exact serveCore_ne_panicHandled router method url _ hx

/-- Witness for the amended C2 at path `/` on a router with one GET route. -/
theorem claim2_amended_witness :
    ('/' ∈ ("/".toList : GoStr)) ∧
    (serveHTTP
        ((handleReg (newRouter (H := Nat) (M := Unit)) ("GET".toList) ("/x".toList) 3).getD
          (newRouter (H := Nat) (M := Unit)))
        ("GET".toList) ("/".toList) ≠ .panicked .splitIndexOOR ∧
      serveHTTP
        ((handleReg (newRouter (H := Nat) (M := Unit)) ("GET".toList) ("/x".toList) 3).getD
          (newRouter (H := Nat) (M := Unit)))
        ("GET".toList) ("/".toList) ≠ .panicHandled .splitIndexOOR) :=
  ⟨by decide,
    claim2_amended_slash_paths_safe _ ("GET".toList) ("/".toList) (by decide)⟩

/-- C2 counterexample: dispatching the empty request path on a router with
one registered GET route hits the unguarded `res[1]` indexing and raises
the index-out-of-range fault, so the split is not guarded before indexing. -/
theorem claim2_counterexample :
    serveHTTP
        ((handleReg (newRouter (H := Nat) (M := Unit)) ("GET".toList) ("/x".toList) 3).getD
          (newRouter (H := Nat) (M := Unit)))
        ("GET".toList) ([] : GoStr) = .panicked .splitIndexOOR := by
  decide

/-! ### C3 counterexample and C5 -/

/-- C3 counterexample: the purely static registered pattern `/a.c` is
spliced into the regex unescaped, so its segment `a.c` matches the request
segment `abc`, which is not character-for-character identical to it. -/
theorem claim3_counterexample :
    matchAndParse ("/abc".toList) ("/a.c".toList) = .matched [] ∧
    ("abc".toList : GoStr) ≠ "a.c".toList := by
  constructor
  · decide
  · decide

/-- C5: `matchAndParse` reports a successful match only when the span found
by the (unanchored) compiled expression equals the entire request URL, and
a strictly partial find is always reported as no-match. -/
theorem claim5_full_span_required (url path : GoStr) (pat : GoStr)
    (matchName : List GoStr) (toks : List Tok) (full : GoStr) (groups : List GoStr)
    (hc : compileRoute path = some (matchName, pat))
    (hp : parseRegex pat = some toks)
    (hf : findFrom toks url = some (full, groups)) :
    (∀ m, matchAndParse url path = .matched m → full = url) ∧
    (full ≠ url → matchAndParse url path = .noMatch) := by
  simp only [matchAndParse, hc, hp, hf]
  constructor
  · intro m hm
    by_cases h : full = url
    · exact h
    · rw [if_neg h] at hm
      cases hm
  · intro hne
    rw [if_neg hne]

/-- Witness for C5: pattern `/users/:id` against the partially-matching
request `/users/42x`; the found span `/users/42` is a strict prefix, and
the result is no-match. -/
theorem claim5_witness :
    compileRoute ("/users/:id".toList) =
      some ([("id".toList)], ("/users/([\\d]+)".toList)) ∧
    parseRegex ("/users/([\\d]+)".toList) =
      some [Tok.one (.lit '/'), Tok.one (.lit 'u'), Tok.one (.lit 's'),
        Tok.one (.lit 'e'), Tok.one (.lit 'r'), Tok.one (.lit 's'),
        Tok.one (.lit '/'), Tok.grp (.plusA .digit)] ∧
    findFrom
        [Tok.one (.lit '/'), Tok.one (.lit 'u'), Tok.one (.lit 's'),
          Tok.one (.lit 'e'), Tok.one (.lit 'r'), Tok.one (.lit 's'),
          Tok.one (.lit '/'), Tok.grp (.plusA .digit)] ("/users/42x".toList) =
      some ("/users/42".toList, [("42".toList)]) ∧
    ((∀ m, matchAndParse ("/users/42x".toList) ("/users/:id".toList) = .matched m →
        ("/users/42".toList : GoStr) = "/users/42x".toList) ∧
      (("/users/42".toList : GoStr) ≠ "/users/42x".toList →
        matchAndParse ("/users/42x".toList) ("/users/:id".toList) = .noMatch)) :=
  ⟨by decide, by decide, by decide,
    claim5_full_span_required ("/users/42x".toList) ("/users/:id".toList)
      ("/users/([\\d]+)".toList) ([("id".toList)])
      [Tok.one (.lit '/'), Tok.one (.lit 'u'), Tok.one (.lit 's'),
        Tok.one (.lit 'e'), Tok.one (.lit 'r'), Tok.one (.lit 's'),
        Tok.one (.lit '/'), Tok.grp (.plusA .digit)]
      ("/users/42".toList) [("42".toList)]
      (by decide) (by decide) (by decide)⟩

/-! ### C8: static routes dispatch with an empty parameter context -/

theorem lookupTree_setTree {H M : Type} (ts : List (GoStr × TreeM H M))
    (k : GoStr) (t : TreeM H M) : lookupTree (setTree ts k t) k = some t := by
  induction ts with
  | nil => simp [setTree, lookupTree]
  | cons p rest ih =>
    rcases p with ⟨k', t'⟩
    simp only [setTree]
    by_cases h : k' = k
    · rw [if_pos h]
      simp [lookupTree]
    · rw [if_neg h]
      simp only [lookupTree]
      rw [if_neg h]
      exact ih

theorem treeFindExact_add_static {H M : Type} (t : TreeM H M) (path : GoStr)
    (h : H) (mw : List M) (hs : isStaticPath path = true) :
    treeFindExact (treeAdd t path h mw) path = [⟨path, some h, mw⟩] := by
  unfold treeFindExact treeAdd
  rw [List.filter_append]
  have hone : List.filter (fun r => isStaticPath r.path && decide (r.path = path))
      [(⟨path, some h, mw⟩ : RouteRec H M)] = [⟨path, some h, mw⟩] := by
    simp [hs]
  rw [hone]
  rw [List.getLast?_concat]

/-- C8: dispatching the exact registered path of a static (pattern-free)
route through a prefix-free router invokes that route's handler with the
registration-time middleware snapshot and an empty parameter context, for
which `GetAllParams` returns nil and `GetParam` returns the empty string
for every key. -/
theorem claim8_static_empty_params {H M : Type} (router : RouterM H M)
    (method path : GoStr) (h : H)
    (hv : validMethod method = true) (hp : router.pfx = [])
    (hs : isStaticPath path = true) :
    ∃ r', handleReg router method path h = some r' ∧
      serveHTTP r' method path = .served h router.middleware none ∧
      getAllParams (none : Option ParamsMap) = none ∧
      ∀ k, getParam (none : Option ParamsMap) k = [] := by
  have hreg : handleReg router method path h =
      some { router with
        trees := setTree router.trees method
          (treeAdd ((lookupTree router.trees method).getD []) path h router.middleware) } := by
    simp [handleReg, hv, hp]
  refine ⟨_, hreg, ?_, rfl, fun k => rfl⟩
  simp only [serveHTTP, serveCore]
  rw [lookupTree_setTree]
  simp only [treeFind, if_pos rfl]
  rw [treeFindExact_add_static _ _ _ _ hs]
  simp

/-- Witness for C8: registering static `/about` on a fresh router and
dispatching `/about`. -/
theorem claim8_witness :
    validMethod ("GET".toList) = true ∧
    (newRouter (H := Nat) (M := Unit)).pfx = [] ∧
    isStaticPath ("/about".toList) = true ∧
    (∃ r', handleReg (newRouter (H := Nat) (M := Unit)) ("GET".toList)
          ("/about".toList) 5 = some r' ∧
        serveHTTP r' ("GET".toList) ("/about".toList) =
          .served 5 (newRouter (H := Nat) (M := Unit)).middleware none ∧
        getAllParams (none : Option ParamsMap) = none ∧
        ∀ k, getParam (none : Option ParamsMap) k = []) :=
  ⟨by decide, rfl, by decide,
    claim8_static_empty_params (newRouter (H := Nat) (M := Unit))
      ("GET".toList) ("/about".toList) 5 (by decide) rfl (by decide)⟩

/-! ### Matching lemmas for the regex model -/

/-- The token list of a literal string. -/
def litToks (w : GoStr) : List Tok := w.map (fun c => Tok.one (.lit c))

theorem matchToks_litToks (w : GoStr) (ts : List Tok) (s : GoStr) :
    matchToks (litToks w ++ ts) s =
      (if w.isPrefixOf s then
        (matchToks ts (s.drop w.length)).map (fun p => (w ++ p.1, p.2))
      else none) := by
  induction w generalizing s with
  | nil =>
    simp only [litToks, List.map_nil, List.nil_append, List.isPrefixOf,
      List.length_nil, List.drop_zero, if_pos]
    cases matchToks ts s with
    | none => rfl
    | some p => rfl
  | cons c w ih =>
    cases s with
    | nil =>
      simp [litToks, matchToks, List.isPrefixOf]
    | cons x xs =>
      simp only [litToks, List.map_cons, List.cons_append, matchToks]
      by_cases hx : x = c
      · subst hx
        rw [if_pos (by simp [CAtom.mch])]
        have ihx := ih xs
        simp only [List.append_eq]
        rw [show (List.map (fun c => Tok.one (CAtom.lit c)) w : List Tok) = litToks w from rfl,
          ihx]
        by_cases hw : w.isPrefixOf xs
        · rw [if_pos hw, if_pos (by simp [List.isPrefixOf, hw])]
          simp only [List.length_cons, List.drop_succ_cons]
          cases matchToks ts (xs.drop w.length) with
          | none => rfl
          | some p => rfl
        · rw [if_neg hw, if_neg (by simp [List.isPrefixOf, hw])]
          rfl
      · rw [if_neg (by simp [CAtom.mch, hx])]
        rw [if_neg (by simp [List.isPrefixOf]; intro h; exact absurd h.symm hx)]

theorem take_munchLen (a : CAtom) (s : GoStr) :
    s.take (munchLen a s) = s.takeWhile a.mch := by
  induction s with
  | nil => rfl
  | cons c cs ih =>
    by_cases h : a.mch c
    · simp only [munchLen, List.takeWhile] at ih ⊢
      rw [h]
      simp only [List.length_cons, List.take_succ_cons]
      rw [ih]
    · simp [munchLen, List.takeWhile, h]

theorem drop_munch_head (a : CAtom) (s : GoStr) {j : Nat} (hj : j < munchLen a s) :
    ∃ c cs, s.drop j = c :: cs ∧ a.mch c = true := by
  induction s generalizing j with
  | nil => simp [munchLen, List.takeWhile] at hj
  | cons x xs ih =>
    by_cases hx : a.mch x
    · cases j with
      | zero => exact ⟨x, xs, rfl, hx⟩
      | succ j' =>
        have hj' : j' < munchLen a xs := by
          simp only [munchLen, List.takeWhile, hx, List.length_cons] at hj ⊢
          omega
        simpa using ih hj'
    · simp [munchLen, List.takeWhile, hx] at hj

theorem munchLen_cons_pos (a : CAtom) (c : Char) (cs : GoStr) (h : a.mch c = true) :
    munchLen a (c :: cs) = munchLen a cs + 1 := by
  simp [munchLen, List.takeWhile, h]

theorem munchLen_eq_zero (a : CAtom) (s : GoStr) :
    munchLen a s = 0 ↔ (s = [] ∨ ∃ c cs, s = c :: cs ∧ a.mch c = false) := by
  cases s with
  | nil => simp [munchLen, List.takeWhile]
  | cons c cs =>
    by_cases h : a.mch c
    · simp [munchLen, List.takeWhile, h]
    · simp only [munchLen, List.takeWhile]
      rw [show a.mch c = false from by simpa using h]
      simp [h]

theorem plusTry_zero (cont : GoStr → Option (GoStr × List GoStr)) (cap : Bool) (s : GoStr) :
    plusTry cont cap 0 s = none := rfl

theorem plusTry_none (cont : GoStr → Option (GoStr × List GoStr)) (cap : Bool) :
    ∀ (K : Nat) (s : GoStr), (∀ j, 1 ≤ j → j ≤ K → cont (s.drop j) = none) →
      plusTry cont cap K s = none := by
  intro K
  induction K with
  | zero => intro s _; rfl
  | succ k ih =>
    intro s h
    simp only [plusTry]
    rw [h (k + 1) (by omega) (le_refl _)]
    exact ih s (fun j h1 h2 => h j h1 (by omega))

theorem plusTry_eq_top (cont : GoStr → Option (GoStr × List GoStr)) (cap : Bool)
    (K : Nat) (s : GoStr) (hK : 1 ≤ K)
    (h : ∀ j, 1 ≤ j → j < K → cont (s.drop j) = none) :
    plusTry cont cap K s =
      (cont (s.drop K)).map
        (fun p => (s.take K ++ p.1, if cap then s.take K :: p.2 else p.2)) := by
  cases K with
  | zero => omega
  | succ k =>
    simp only [plusTry]
    cases hc : cont (s.drop (k + 1)) with
    | some p =>
      cases p
      rfl
    | none =>
      simp only [Option.map_none']
      exact plusTry_none cont cap k s (fun j h1 h2 => h j h1 (by omega))

theorem matchToks_grpPlus_end (a : CAtom) (s : GoStr) :
    matchToks [.grp (.plusA a)] s =
      (if munchLen a s = 0 then none
       else some (s.takeWhile a.mch, [s.takeWhile a.mch])) := by
  simp only [matchToks]
  rcases hK : munchLen a s with _ | k
  · rfl
  · rw [if_neg (by omega)]
    simp only [plusTry, matchToks]
    rw [← hK, take_munchLen]
    simp

theorem matchToks_grpPlus_next (a : CAtom) (c : Char) (ts : List Tok) (s : GoStr)
    (hac : a.mch c = false) :
    matchToks (.grp (.plusA a) :: .one (.lit c) :: ts) s =
      (if munchLen a s = 0 then none
       else (matchToks (.one (.lit c) :: ts) (s.drop (munchLen a s))).map
         (fun p => (s.takeWhile a.mch ++ p.1, s.takeWhile a.mch :: p.2))) := by
  simp only [matchToks]
  rcases hK : munchLen a s with _ | k
  · rfl
  · rw [if_neg (by omega)]
    rw [plusTry_eq_top _ _ _ _ (by omega) ?_]
    · rw [← hK, take_munchLen]
      simp
    · intro j h1 hj
      rw [← hK] at hj
      obtain ⟨x, xs, hdx, hx⟩ := drop_munch_head a s hj
      rw [hdx]
      simp only [matchToks]
      rw [if_neg]
      intro hceq
      have : x = c := by simpa [CAtom.mch] using hceq
      rw [this] at hx
      rw [hx] at hac
      cases hac

theorem matchAtoms_split (as : List CAtom) :
    ∀ (s g rest : GoStr), matchAtoms as s = some (g, rest) → g ++ rest = s := by
  induction as with
  | nil =>
    intro s g rest h
    simp only [matchAtoms] at h
    injection h with h1
    injection h1 with h2 h3
    rw [← h2, ← h3]
    rfl
  | cons a as ih =>
    intro s g rest h
    cases s with
    | nil => simp [matchAtoms] at h
    | cons c cs =>
      simp only [matchAtoms] at h
      split at h
      · rcases Option.map_eq_some'.1 h with ⟨⟨g', rest'⟩, hm, heq⟩
        injection heq with h1 h2
        have := ih cs g' rest' hm
        rw [← h1, ← h2]
        simpa using this
      · cases h

theorem plusTry_consumed (cont : GoStr → Option (GoStr × List GoStr)) (cap : Bool)
    (hcont : ∀ s' u gs, cont s' = some (u, gs) → ∃ r, u ++ r = s') :
    ∀ (K : Nat) (s u : GoStr) (gs : List GoStr),
      plusTry cont cap K s = some (u, gs) → ∃ r, u ++ r = s := by
  intro K
  induction K with
  | zero => intro s u gs h; cases h
  | succ k ih =>
    intro s u gs h
    simp only [plusTry] at h
    cases hp : cont (s.drop (k + 1)) with
    | some p =>
      rcases p with ⟨u', gs'⟩
      simp only [hp] at h
      injection h with h1
      injection h1 with h2 h3
      obtain ⟨r, hr⟩ := hcont _ _ _ hp
      refine ⟨r, ?_⟩
      rw [← h2, List.append_assoc, hr]
      exact List.take_append_drop _ s
    | none =>
      simp only [hp] at h
      exact ih s u gs h

theorem matchToks_consumed : ∀ (ts : List Tok) (s u : GoStr) (gs : List GoStr),
    matchToks ts s = some (u, gs) → ∃ r, u ++ r = s := by
  intro ts
  induction ts with
  | nil =>
    intro s u gs h
    simp only [matchToks] at h
    injection h with h1
    injection h1 with h2 h3
    exact ⟨s, by rw [← h2]; rfl⟩
  | cons t ts ih =>
    intro s u gs h
    cases t with
    | one a =>
      cases s with
      | nil => simp [matchToks] at h
      | cons c cs =>
        simp only [matchToks] at h
        split at h
        · rcases Option.map_eq_some'.1 h with ⟨⟨u', gs'⟩, hm, heq⟩
          injection heq with h1 h2
          obtain ⟨r, hr⟩ := ih cs u' gs' hm
          exact ⟨r, by rw [← h1]; simpa using hr⟩
        · cases h
    | plus a =>
      simp only [matchToks] at h
      exact plusTry_consumed _ _ (fun s' u' gs' h' => ih s' u' gs' h') _ s u gs h
    | grp f =>
      cases f with
      | plusA a =>
        simp only [matchToks] at h
        exact plusTry_consumed _ _ (fun s' u' gs' h' => ih s' u' gs' h') _ s u gs h
      | seqA as =>
        simp only [matchToks] at h
        cases hp : matchAtoms as s with
        | none =>
          simp only [hp] at h
          cases h
        | some p =>
          rcases p with ⟨g, rest⟩
          simp only [hp] at h
          rcases Option.map_eq_some'.1 h with ⟨⟨u', gs'⟩, hm, heq⟩
          injection heq with h1 h2
          obtain ⟨r, hr⟩ := ih rest u' gs' hm
          refine ⟨r, ?_⟩
          rw [← h1, List.append_assoc, hr]
          exact matchAtoms_split as s g rest hp

theorem findFrom_of_matchToks (ts : List Tok) (s : GoStr) (r : GoStr × List GoStr)
    (h : matchToks ts s = some r) : findFrom ts s = some r := by
  cases s with
  | nil => simpa [findFrom] using h
  | cons c cs => simp [findFrom, h]

theorem findFrom_inv (ts : List Tok) : ∀ (s : GoStr) (r : GoStr × List GoStr),
    findFrom ts s = some r → ∃ k, matchToks ts (s.drop k) = some r := by
  intro s
  induction s with
  | nil =>
    intro r h
    exact ⟨0, by simpa [findFrom] using h⟩
  | cons c cs ih =>
    intro r h
    simp only [findFrom] at h
    split at h
    · rename_i r' hr'
      injection h with h1
      exact ⟨0, by rw [List.drop_zero, hr', h1]⟩
    · obtain ⟨k, hk⟩ := ih r h
      exact ⟨k + 1, by simpa using hk⟩

theorem findFrom_full (ts : List Tok) (url : GoStr) (gs : List GoStr) :
    findFrom ts url = some (url, gs) ↔ matchToks ts url = some (url, gs) := by
  constructor
  · intro h
    obtain ⟨k, hk⟩ := findFrom_inv ts url (url, gs) h
    by_cases hu : url = []
    · subst hu
      simpa using hk
    · have hk0 : k = 0 := by
        obtain ⟨r, hr⟩ := matchToks_consumed ts _ _ _ hk
        have hlen := congrArg List.length hr
        simp only [List.length_append, List.length_drop] at hlen
        have hne : 0 < url.length := List.length_pos.2 hu
        omega
      rw [hk0, List.drop_zero] at hk
      exact hk
  · intro h
    exact findFrom_of_matchToks ts url (url, gs) h

/-- With a fixed compilation and parse of the route pattern, the result of
`matchAndParse` is fully determined by the anchored match at position 0:
the full-span guard rejects every match found at a later position. -/
theorem matchAndParse_eq_anchor (url path : GoStr) (names : List GoStr)
    (pat : GoStr) (toks : List Tok)
    (hc : compileRoute path = some (names, pat)) (hp : parseRegex pat = some toks) :
    matchAndParse url path =
      (match matchToks toks url with
       | some (u, gs) =>
         if u = url then
           (match assignParams names gs [] with
            | none => MatchRes.panicked
            | some m => MatchRes.matched m)
         else .noMatch
       | none => .noMatch) := by
  simp only [matchAndParse, hc, hp]
  cases hm : matchToks toks url with
  | some r =>
    rcases r with ⟨u, gs⟩
    rw [findFrom_of_matchToks toks url (u, gs) hm]
  | none =>
    cases hf : findFrom toks url with
    | none => rfl
    | some r =>
      rcases r with ⟨full, groups⟩
      by_cases hfu : full = url
      · subst hfu
        have := (findFrom_full toks full groups).1 hf
        rw [this] at hm
        cases hm
      · dsimp only
        rw [if_neg hfu]

/-! ### Compilation of `/`-split segments, one step at a time -/

theorem compileLoop_nil_seg (rest : List GoStr) (names : List GoStr) (sTemp : GoStr) :
    compileLoop ([] :: rest) names sTemp = compileLoop rest names sTemp := rfl

theorem compileLoop_static_seg (c0 : Char) (cs : GoStr) (rest : List GoStr)
    (names : List GoStr) (sTemp : GoStr)
    (hb : ¬(c0 = '{' ∧ (c0 :: cs).getLastD ' ' = '}')) (hc : ¬(c0 = ':')) :
    compileLoop ((c0 :: cs) :: rest) names sTemp =
      compileLoop rest names (sTemp ++ '/' :: (c0 :: cs)) := by
  simp only [compileLoop]
  rw [if_neg hb, if_neg hc]

theorem compileLoop_colon_seg (name : GoStr) (hcol : ':' ∉ name) (rest : List GoStr)
    (names : List GoStr) (sTemp : GoStr) :
    compileLoop ((':' :: name) :: rest) names sTemp =
      compileLoop rest (names ++ [name])
        (sTemp ++ '/' :: '(' :: ((if name = idKey then idPattern else defaultPattern) ++ [')'])) := by
  simp only [compileLoop]
  rw [if_neg (fun hcontra => absurd hcontra.1 (by decide))]
  rw [if_pos trivial]
  simp only [splitChar_cons_sep, splitChar_no_sep hcol]
  by_cases hid : name = idKey
  · rw [if_pos hid, if_pos hid]
    simp
  · rw [if_neg hid, if_neg hid]
    simp

/-- Compiling the pattern `/users/:name` (for a well-formed parameter name)
yields the single parameter `name` and the regex `/users/(cls)` with the
digit class exactly when the name is `id`. -/
theorem compileRoute_users_param (name : GoStr) (h2 : ':' ∉ name) (h3 : '/' ∉ name) :
    compileRoute ("/users/:".toList ++ name) =
      some ([name],
        "/users".toList ++ '/' :: '(' ::
          ((if name = idKey then idPattern else defaultPattern) ++ [')'])) := by
  have hsplit : splitChar '/' ("/users/:".toList ++ name) =
      [[], "users".toList, ':' :: name] := by
    have h1 : ("/users/:".toList ++ name : GoStr) =
        '/' :: ("users".toList ++ ('/' :: (':' :: name))) := rfl
    rw [h1, splitChar_cons_sep]
    rw [splitChar_append_sep _ (by decide)]
    rw [splitChar_no_sep (by
      intro hc
      rcases List.mem_cons.1 hc with h | h
      · exact absurd h (by decide)
      · exact h3 h)]
  rw [compileRoute, hsplit]
  rw [compileLoop_nil_seg]
  rw [show ("users".toList : GoStr) = 'u' :: "sers".toList from rfl]
  rw [compileLoop_static_seg 'u' ("sers".toList) _ _ _
    (fun hcontra => absurd hcontra.1 (by decide)) (by decide)]
  rw [compileLoop_colon_seg name h2]
  simp [compileLoop]

/-! ### The anchored match of `/prefix/(cls+)` patterns -/

theorem takeWhile_eq_self_of_all {p : Char → Bool} :
    ∀ {l : GoStr}, l.all p = true → l.takeWhile p = l := by
  intro l
  induction l with
  | nil => intro _; rfl
  | cons c cs ih =>
    intro h
    simp only [List.all_cons, Bool.and_eq_true] at h
    simp [List.takeWhile, h.1, ih h.2]

theorem all_of_takeWhile_eq_self {p : Char → Bool} :
    ∀ {l : GoStr}, l.takeWhile p = l → l.all p = true := by
  intro l
  induction l with
  | nil => intro _; rfl
  | cons c cs ih =>
    intro h
    by_cases hc : p c
    · simp only [List.takeWhile, hc] at h
      have : cs.takeWhile p = cs := by
        injection h
      simp [List.all_cons, hc, ih this]
    · simp only [List.takeWhile] at h
      rw [show p c = false from by simpa using hc] at h
      cases h

theorem matchToks_lits_grp (w : GoStr) (a : CAtom) (s : GoStr) :
    matchToks (litToks w ++ [.grp (.plusA a)]) (w ++ s) =
      (if munchLen a s = 0 then none
       else some (w ++ s.takeWhile a.mch, [s.takeWhile a.mch])) := by
  rw [matchToks_litToks]
  rw [if_pos (by rw [List.isPrefixOf_iff_prefix]; exact List.prefix_append w s)]
  rw [List.drop_left]
  rw [matchToks_grpPlus_end]
  by_cases h : munchLen a s = 0
  · rw [if_pos h, if_pos h]
    rfl
  · rw [if_neg h, if_neg h]
    rfl

theorem matchAndParse_users_cls (name s : GoStr) (a : CAtom) (pat : GoStr)
    (hcomp : compileRoute ("/users/:".toList ++ name) = some ([name], pat))
    (hparse : parseRegex pat = some (litToks ("/users/".toList) ++ [.grp (.plusA a)])) :
    matchAndParse ("/users/".toList ++ s) ("/users/:".toList ++ name) =
      (if s ≠ [] ∧ s.all a.mch = true then .matched [(name, s)] else .noMatch) := by
  rw [matchAndParse_eq_anchor _ _ [name] pat _ hcomp hparse]
  rw [matchToks_lits_grp]
  by_cases hall : s ≠ [] ∧ s.all a.mch = true
  · obtain ⟨hne, hall'⟩ := hall
    have htw : s.takeWhile a.mch = s := takeWhile_eq_self_of_all hall'
    have hmu : ¬(munchLen a s = 0) := by
      simp only [munchLen, htw]
      simpa using hne
    rw [if_neg hmu, htw]
    rw [if_pos ⟨hne, hall'⟩]
    simp [assignParams, mapSet]
  · rw [if_neg hall]
    by_cases hs : s = []
    · subst hs
      rw [if_pos (show munchLen a [] = 0 from rfl)]
    · have hnall : ¬(s.all a.mch = true) := fun h => hall ⟨hs, h⟩
      have htw : s.takeWhile a.mch ≠ s := fun h => hnall (all_of_takeWhile_eq_self h)
      by_cases hmu : munchLen a s = 0
      · rw [if_pos hmu]
      · rw [if_neg hmu]
        dsimp only
        rw [if_neg (fun h => htw (List.append_cancel_left h))]

/-- C4: a `:name` parameter segment matches exactly the nonempty strings of
word characters `[A-Za-z0-9_]+`, except that a parameter literally named
`id` matches exactly the nonempty strings of digits `[0-9]+`; the captured
value is bound to the parameter name.  Stated on the spec's own example
family `/users/:name`. -/
theorem claim4_param_segment_classes (name s : GoStr)
    (h2 : ':' ∉ name) (h3 : '/' ∉ name) :
    matchAndParse ("/users/".toList ++ s) ("/users/:".toList ++ name) =
      (if s ≠ [] ∧ s.all (fun c => if name = idKey then c.isDigit else isWordChar c) = true
       then .matched [(name, s)] else .noMatch) := by
  have hcomp := compileRoute_users_param name h2 h3
  by_cases hid : name = idKey
  · rw [if_pos hid] at hcomp
    have := matchAndParse_users_cls name s .digit _ hcomp (by decide)
    rw [this]
    simp only [hid, if_pos rfl]
    rfl
  · rw [if_neg hid] at hcomp
    have := matchAndParse_users_cls name s .word _ hcomp (by decide)
    rw [this]
    have hx : (fun c => if name = idKey then c.isDigit else isWordChar c) =
        (fun c => isWordChar c) := by
      funext c
      rw [if_neg hid]
    rw [hx]
    rfl

/-- Witness for C4: `/users/:id` matches `/users/42` binding `id = "42"`,
and does not match `/users/abc`; `/users/:name` does match `/users/abc`. -/
theorem claim4_witness :
    (':' ∉ ("id".toList : GoStr)) ∧ ('/' ∉ ("id".toList : GoStr)) ∧
    (matchAndParse ("/users/".toList ++ "42".toList) ("/users/:".toList ++ "id".toList) =
        (if "42".toList ≠ ([] : GoStr) ∧
            ("42".toList : GoStr).all
              (fun c => if "id".toList = idKey then c.isDigit else isWordChar c) = true
         then .matched [("id".toList, "42".toList)] else .noMatch)) ∧
    (matchAndParse ("/users/".toList ++ "abc".toList) ("/users/:".toList ++ "id".toList) =
        (if "abc".toList ≠ ([] : GoStr) ∧
            ("abc".toList : GoStr).all
              (fun c => if "id".toList = idKey then c.isDigit else isWordChar c) = true
         then .matched [("id".toList, "abc".toList)] else .noMatch)) :=
  ⟨by decide, by decide,
    claim4_param_segment_classes ("id".toList) ("42".toList) (by decide) (by decide),
    claim4_param_segment_classes ("id".toList) ("abc".toList) (by decide) (by decide)⟩

/-! ### Fuel lemmas for the regex parser -/

theorem parseAtom?_length : ∀ (s : GoStr) (a : CAtom) (r : GoStr),
    parseAtom? s = some (a, r) → r.length < s.length := by
  intro s a r h
  cases s with
  | nil => cases h
  | cons c rest =>
    simp only [parseAtom?] at h
    split at h
    · injection h with h1
      injection h1 with h2 h3
      rw [← h3]
      simp
    · split at h
      · split at h
        · injection h with h1
          injection h1 with h2 h3
          rw [← h3]
          rename_i heq
          subst heq
          simp only [List.length_cons]
          omega
        · injection h with h1
          injection h1 with h2 h3
          rw [← h3]
          rename_i heq
          subst heq
          simp only [List.length_cons]
          omega
        · cases h
      · split at h
        · cases h
        · injection h with h1
          injection h1 with h2 h3
          rw [← h3]
          simp

theorem parseToksF_succ : ∀ (n : Nat) (s : GoStr) (f : Nat), s.length = n → s.length ≤ f →
    parseToksF (f + 1) s = parseToksF f s := by
  intro n
  induction n using Nat.strong_induction_on with
  | _ n ih =>
    intro s f hn hf
    cases s with
    | nil => cases f <;> rfl
    | cons c rest =>
      simp only [List.length_cons] at hn hf
      cases f with
      | zero => omega
      | succ f' =>
        simp only [parseToksF]
        by_cases hc : c = '('
        · rw [if_pos hc, if_pos hc]
          cases hd : List.drop (List.takeWhile (fun x => decide (x ≠ ')')) rest).length rest with
          | nil => rfl
          | cons c2 rest2 =>
            by_cases h2 : c2 = ')'
            · subst h2
              cases hg : parseGFrag (List.takeWhile (fun x => decide (x ≠ ')')) rest) with
              | none => rfl
              | some frag =>
                cases rest2 with
                | nil => cases f' <;> rfl
                | cons c3 rest3 =>
                  have hdl := congrArg List.length hd
                  simp only [List.length_drop, List.length_cons] at hdl
                  by_cases h3 : c3 = '+'
                  · subst h3
                    rfl
                  · have hlt : (c3 :: rest3).length < n := by
                      simp only [List.length_cons]
                      omega
                    have hle : (c3 :: rest3).length ≤ f' := by
                      simp only [List.length_cons]
                      omega
                    have heq := ih (c3 :: rest3).length hlt (c3 :: rest3) f' rfl hle
                    split
                    · rename_i rest2' heq2
                      injection heq2 with hch1 hch2
                      subst hch2
                      split
                      · rfl
                      · rename_i frag2 heq4
                        injection heq4 with hfr
                        subst hfr
                        split
                        · rename_i tail heq3
                          injection heq3 with hch
                          exact absurd hch h3
                        · rw [heq]
                    · rfl
            · split
              · rename_i rest2' heq
                injection heq with hch
                exact absurd hch h2
              · rfl
        · rw [if_neg hc, if_neg hc]
          cases hpa : parseAtom? (c :: rest) with
          | none => rfl
          | some p =>
            rcases p with ⟨a, rest'⟩
            have hlen := parseAtom?_length _ _ _ hpa
            simp only [List.length_cons] at hlen
            cases rest' with
            | nil => cases f' <;> rfl
            | cons c4 rest4 =>
              simp only [List.length_cons] at hlen
              by_cases h4 : c4 = '+'
              · subst h4
                have hlt : rest4.length < n := by omega
                have hle : rest4.length ≤ f' := by omega
                have heq := ih rest4.length hlt rest4 f' rfl hle
                exact congrArg (Option.map _) heq
              · have hlt : (c4 :: rest4).length < n := by
                  simp only [List.length_cons]
                  omega
                have hle : (c4 :: rest4).length ≤ f' := by
                  simp only [List.length_cons]
                  omega
                have heq := ih (c4 :: rest4).length hlt (c4 :: rest4) f' rfl hle
                split
                · rfl
                · rename_i a2 rest2' heq2
                  injection heq2 with h1'
                  injection h1' with ha hr
                  subst ha
                  subst hr
                  split
                  · rename_i tail heq3
                    injection heq3 with hch
                    exact absurd hch h4
                  · exact congrArg (Option.map _) heq

theorem parseToksF_of_le : ∀ (f : Nat) (s : GoStr), s.length ≤ f →
    parseToksF f s = parseRegex s := by
  intro f
  induction f with
  | zero =>
    intro s hl
    have : s = [] := List.length_eq_zero.1 (by omega)
    subst this
    rfl
  | succ f ih =>
    intro s hl
    by_cases h : s.length ≤ f
    · rw [parseToksF_succ s.length s f rfl h]
      exact ih s h
    · have : s.length = f + 1 := by omega
      rw [parseRegex, this]

/-! ### Parsing of the generated regex strings -/

theorem parseAtom?_plain (c : Char) (rest : GoStr) (hm : isMeta c = false) :
    parseAtom? (c :: rest) = some (.lit c, rest) := by
  have hdot : ¬(c = '.') := fun h => by subst h; exact absurd hm (by decide)
  have hbr : ¬(c = '[') := fun h => by subst h; exact absurd hm (by decide)
  simp only [parseAtom?]
  rw [if_neg hdot, if_neg hbr, if_neg (by simp [hm])]

theorem parseRegex_cons_plain (c : Char) (rest : GoStr) (hm : isMeta c = false)
    (hplus : rest.head? ≠ some '+') :
    parseRegex (c :: rest) = (parseRegex rest).map (Tok.one (.lit c) :: ·) := by
  have hpar : ¬(c = '(') := fun h => by subst h; exact absurd hm (by decide)
  show parseToksF (rest.length + 1) (c :: rest) = _
  simp only [parseToksF]
  rw [if_neg hpar]
  rw [parseAtom?_plain c rest hm]
  cases rest with
  | nil => rfl
  | cons c2 r2 =>
    split
    · rename_i x0 heq0
      cases heq0
    · rename_i a2 rest2' heq2
      injection heq2 with h1'
      injection h1' with ha hr
      subst ha
      subst hr
      split
      · rename_i tail heq3
        injection heq3 with hch
        exact absurd (by rw [hch]; rfl) hplus
      · rfl

theorem parseRegex_lits (w : GoStr) (rest : GoStr)
    (hw : ∀ c ∈ w, isMeta c = false) (hplus : rest.head? ≠ some '+') :
    parseRegex (w ++ rest) = (parseRegex rest).map (litToks w ++ ·) := by
  induction w with
  | nil =>
    cases hr : parseRegex rest with
    | none => simp [hr]
    | some ts => simp [hr, litToks]
  | cons c w ih =>
    rw [List.cons_append]
    rw [parseRegex_cons_plain c (w ++ rest) (hw c (List.mem_cons_self c w)) ?hp]
    case hp =>
      cases w with
      | nil => exact hplus
      | cons cw w' =>
        intro hcontra
        injection hcontra with hch
        have := hw cw (by simp)
        rw [hch] at this
        exact absurd this (by decide)
    rw [ih (fun c hc => hw c (List.mem_cons_of_mem _ hc))]
    cases parseRegex rest with
    | none => rfl
    | some ts => rfl

theorem parseGFrag_w : parseGFrag ("[\\w]+".toList) = some (.plusA .word) := by decide

theorem parseGFrag_d : parseGFrag ("[\\d]+".toList) = some (.plusA .digit) := by decide

theorem parseRegex_grp (fr : GoStr) (a : CAtom) (rest : GoStr)
    (hfr : fr = "[\\w]+".toList ∧ a = .word ∨ fr = "[\\d]+".toList ∧ a = .digit)
    (hplus : rest.head? ≠ some '+') :
    parseRegex ('(' :: (fr ++ (')' :: rest))) = (parseRegex rest).map (.grp (.plusA a) :: ·) := by
  have hlen : ('(' :: (fr ++ (')' :: rest))).length = rest.length + 6 + 1 := by
    rcases hfr with ⟨hf, _⟩ | ⟨hf, _⟩ <;> subst hf <;> simp
  rcases hfr with ⟨hf, ha⟩ | ⟨hf, ha⟩ <;> subst hf <;> subst ha
  · rw [parseRegex, hlen]
    simp only [parseToksF]
    rw [if_pos trivial]
    rw [show List.takeWhile (fun x => decide (x ≠ ')')) ("[\\w]+".toList ++ (')' :: rest)) =
      "[\\w]+".toList from rfl]
    rw [show List.drop (("[\\w]+".toList : GoStr)).length ("[\\w]+".toList ++ (')' :: rest)) =
      ')' :: rest from rfl]
    split
    · rename_i rest2' heq
      injection heq with hch1 hch2
      subst hch2
      rw [parseGFrag_w]
      split
      · rename_i t0 heq3
        cases heq3
      · rename_i frag2 heq4
        injection heq4 with hfr
        subst hfr
        cases rest with
        | nil => rfl
        | cons c2 r2 =>
          split
          · rename_i tail heq3
            injection heq3 with hch
            exact absurd (by simp [List.head?, hch]) hplus
          · rw [parseToksF_of_le _ _ (by omega)]
    · rename_i hno
      exact absurd rfl (hno rest)
  · rw [parseRegex, hlen]
    simp only [parseToksF]
    rw [if_pos trivial]
    rw [show List.takeWhile (fun x => decide (x ≠ ')')) ("[\\d]+".toList ++ (')' :: rest)) =
      "[\\d]+".toList from rfl]
    rw [show List.drop (("[\\d]+".toList : GoStr)).length ("[\\d]+".toList ++ (')' :: rest)) =
      ')' :: rest from rfl]
    split
    · rename_i rest2' heq
      injection heq with hch1 hch2
      subst hch2
      rw [parseGFrag_d]
      split
      · rename_i t0 heq3
        cases heq3
      · rename_i frag2 heq4
        injection heq4 with hfr
        subst hfr
        cases rest with
        | nil => rfl
        | cons c2 r2 =>
          split
          · rename_i tail heq3
            injection heq3 with hch
            exact absurd (by simp [List.head?, hch]) hplus
          · rw [parseToksF_of_le _ _ (by omega)]
    · rename_i hno
      exact absurd rfl (hno rest)

/-! ### Normalized patterns: static and `:name` segments -/

/-- A route-pattern segment for the round-trip analysis: a static literal
or a `:name` parameter. -/
inductive Seg
  | stat (w : GoStr)
  | param (n : GoStr)
  deriving DecidableEq

/-- The text of a segment as it appears in the registered pattern. -/
def segStr : Seg → GoStr
  | .stat w => w
  | .param n => ':' :: n

/-- Whether the segment is static. -/
def isStatSeg : Seg → Bool
  | .stat _ => true
  | .param _ => false

/-- The slash-normalized registered pattern `/s1/s2/...` rendered from a
segment list. -/
def renderPath : List Seg → GoStr
  | [] => []
  | sg :: rest => '/' :: (segStr sg ++ renderPath rest)

/-- The capture class the router compiles for a `:name` parameter. -/
def clsOf (n : GoStr) : CAtom := if n = idKey then .digit else .word

/-- The regex fragment the router splices for a `:name` parameter. -/
def rxFragOf (n : GoStr) : GoStr := if n = idKey then idPattern else defaultPattern

/-- The regex string the router compiles for the rendered pattern. -/
def rxOf : List Seg → GoStr
  | [] => []
  | .stat w :: rest => '/' :: (w ++ rxOf rest)
  | .param n :: rest => '/' :: '(' :: (rxFragOf n ++ (')' :: rxOf rest))

/-- The parsed token list of that regex string. -/
def toksOf : List Seg → List Tok
  | [] => []
  | .stat w :: rest => .one (.lit '/') :: (litToks w ++ toksOf rest)
  | .param n :: rest => .one (.lit '/') :: .grp (.plusA (clsOf n)) :: toksOf rest

/-- The parameter names of the pattern, in order. -/
def namesOf : List Seg → List GoStr
  | [] => []
  | .stat _ :: rest => namesOf rest
  | .param n :: rest => n :: namesOf rest

/-- Well-formedness of a segment: a static segment is nonempty, free of
regex metacharacters and `/`, and does not begin with `:`; a parameter
name is nonempty and free of `:` and `/`. -/
def segWF : Seg → Prop
  | .stat w => w ≠ [] ∧ (∀ c ∈ w, isMeta c = false ∧ c ≠ '/') ∧ w.headD ' ' ≠ ':'
  | .param n => n ≠ [] ∧ ':' ∉ n ∧ '/' ∉ n

theorem segStr_no_slash (sg : Seg) (h : segWF sg) : '/' ∉ segStr sg := by
  cases sg with
  | stat w =>
    intro hc
    exact ((h.2.1 '/' hc).2) rfl
  | param n =>
    intro hc
    rcases List.mem_cons.1 hc with h1 | h2
    · exact absurd h1 (by decide)
    · exact h.2.2 h2

theorem splitChar_renderPath (segs : List Seg) (hwf : ∀ sg ∈ segs, segWF sg) :
    splitChar '/' (renderPath segs) = [] :: segs.map segStr := by
  induction segs with
  | nil => rfl
  | cons sg rest ih =>
    simp only [renderPath, List.map_cons]
    rw [splitChar_cons_sep]
    have hns := segStr_no_slash sg (hwf sg (List.mem_cons_self sg rest))
    cases rest with
    | nil =>
      simp only [renderPath, List.append_nil]
      rw [splitChar_no_sep hns]
      rfl
    | cons sg2 rest2 =>
      have ih2 := ih (fun s hs => hwf s (List.mem_cons_of_mem _ hs))
      simp only [renderPath] at ih2
      rw [splitChar_cons_sep] at ih2
      injection ih2 with h1 h2
      simp only [renderPath]
      rw [splitChar_append_sep _ hns]
      rw [h2]

theorem compileLoop_segs (segs : List Seg) (hwf : ∀ sg ∈ segs, segWF sg) :
    ∀ (names : List GoStr) (sTemp : GoStr),
      compileLoop (segs.map segStr) names sTemp =
        some (names ++ namesOf segs, sTemp ++ rxOf segs) := by
  induction segs with
  | nil =>
    intro names sTemp
    simp [compileLoop, namesOf, rxOf]
  | cons sg rest ih =>
    intro names sTemp
    have hw := hwf sg (List.mem_cons_self sg rest)
    have ihr := ih (fun s hs => hwf s (List.mem_cons_of_mem _ hs))
    cases sg with
    | stat w =>
      cases w with
      | nil => exact absurd rfl hw.1
      | cons c0 cs =>
        simp only [List.map_cons, segStr]
        rw [compileLoop_static_seg c0 cs _ _ _ ?hb ?hc]
        · rw [ihr]
          simp [namesOf, rxOf, List.append_assoc]
        case hb =>
          intro hcontra
          have := (hw.2.1 c0 (List.mem_cons_self c0 cs)).1
          rw [hcontra.1] at this
          exact absurd this (by decide)
        case hc =>
          exact hw.2.2
    | param n =>
      simp only [List.map_cons, segStr]
      rw [compileLoop_colon_seg n hw.2.1]
      rw [ihr]
      simp only [namesOf, rxOf, rxFragOf]
      simp [List.append_assoc]

/-- Compiling a well-formed normalized pattern yields its parameter names
and the segment-wise regex string. -/
theorem compileRoute_renderPath (segs : List Seg) (hwf : ∀ sg ∈ segs, segWF sg) :
    compileRoute (renderPath segs) = some (namesOf segs, rxOf segs) := by
  rw [compileRoute, splitChar_renderPath segs hwf]
  rw [compileLoop_nil_seg]
  rw [compileLoop_segs segs hwf [] []]
  simp

theorem rxOf_head_ne_plus (segs : List Seg) : (rxOf segs).head? ≠ some '+' := by
  cases segs with
  | nil => simp [rxOf]
  | cons sg rest =>
    cases sg with
    | stat w => simp [rxOf]
    | param n => simp [rxOf]

/-- Parsing the compiled regex string of a well-formed normalized pattern
yields the segment-wise token list. -/
theorem parseRegex_rxOf (segs : List Seg) (hwf : ∀ sg ∈ segs, segWF sg) :
    parseRegex (rxOf segs) = some (toksOf segs) := by
  induction segs with
  | nil => rfl
  | cons sg rest ih =>
    have ihr := ih (fun s hs => hwf s (List.mem_cons_of_mem _ hs))
    have hw := hwf sg (List.mem_cons_self sg rest)
    cases sg with
    | stat w =>
      simp only [rxOf]
      rw [parseRegex_cons_plain '/' _ (by decide) ?h1]
      · rw [parseRegex_lits w (rxOf rest)
          (fun c hc => (hw.2.1 c hc).1) (rxOf_head_ne_plus rest)]
        rw [ihr]
        rfl
      case h1 =>
        cases w with
        | nil => exact absurd rfl hw.1
        | cons cw ws =>
          intro hcontra
          injection hcontra with hch
          have := (hw.2.1 cw (List.mem_cons_self cw ws)).1
          rw [hch] at this
          exact absurd this (by decide)
    | param n =>
      simp only [rxOf]
      rw [parseRegex_cons_plain '/' _ (by decide) (by intro h; injection h with hc; exact absurd hc (by decide))]
      rw [parseRegex_grp (rxFragOf n) (clsOf n) (rxOf rest) ?hfr (rxOf_head_ne_plus rest)]
      · rw [ihr]
        rfl
      case hfr =>
        by_cases hid : n = idKey
        · right
          constructor
          · simp only [rxFragOf, hid, if_pos rfl]
            rfl
          · simp [clsOf, hid]
        · left
          constructor
          · simp only [rxFragOf, if_neg hid]
            rfl
          · simp [clsOf, hid]

/-! ### Round-trip of captured values through normalized patterns -/

/-- The request URL reconstructed from segments and captured values. -/
def renderVals : List Seg → List GoStr → GoStr
  | [], _ => []
  | .stat w :: rest, vs => '/' :: (w ++ renderVals rest vs)
  | .param _ :: rest, v :: vs => '/' :: (v ++ renderVals rest vs)
  | .param _ :: _, [] => []

theorem toksOf_cons_shape (sg : Seg) (rest : List Seg) :
    ∃ T, toksOf (sg :: rest) = .one (.lit '/') :: T := by
  cases sg <;> exact ⟨_, rfl⟩

theorem clsOf_slash (n : GoStr) : (clsOf n).mch '/' = false := by
  unfold clsOf
  split <;> decide

theorem matchToks_one_inv (a : CAtom) (ts : List Tok) (s u : GoStr) (gs : List GoStr)
    (h : matchToks (.one a :: ts) s = some (u, gs)) :
    ∃ c cs u', s = c :: cs ∧ a.mch c = true ∧ matchToks ts cs = some (u', gs) ∧ u = c :: u' := by
  cases s with
  | nil => simp [matchToks] at h
  | cons c cs =>
    simp only [matchToks] at h
    split at h
    · rcases Option.map_eq_some'.1 h with ⟨⟨u', gs'⟩, hm, heq⟩
      injection heq with h1 h2
      have h1' : c :: u' = u := h1
      have h2' : gs' = gs := h2
      rename_i hmch
      rw [h2'] at hm
      exact ⟨c, cs, u', rfl, hmch, hm, h1'.symm⟩
    · cases h

theorem matchToks_toksOf (segs : List Seg) (hwf : ∀ sg ∈ segs, segWF sg) :
    ∀ (s u : GoStr) (gs : List GoStr), matchToks (toksOf segs) s = some (u, gs) →
      gs.length = (namesOf segs).length ∧ u = renderVals segs gs := by
  induction segs with
  | nil =>
    intro s u gs h
    simp only [toksOf, matchToks] at h
    injection h with h1
    injection h1 with h2 h3
    refine ⟨by rw [← h3]; rfl, by rw [← h2]; rfl⟩
  | cons sg rest ih =>
    intro s u gs h
    have ihr := ih (fun x hx => hwf x (List.mem_cons_of_mem _ hx))
    cases sg with
    | stat w =>
      simp only [toksOf] at h
      obtain ⟨c, cs, u', hs, hmch, hrec, hu⟩ := matchToks_one_inv _ _ _ _ _ h
      rw [matchToks_litToks] at hrec
      split at hrec
      · rcases Option.map_eq_some'.1 hrec with ⟨⟨u2, gs2⟩, hm2, heq2⟩
        injection heq2 with h1 h2
        have h1' : w ++ u2 = u' := h1
        have h2' : gs2 = gs := h2
        rw [h2'] at hm2
        obtain ⟨hlen2, hrv⟩ := ihr _ _ _ hm2
        have hc : c = '/' := by simpa [CAtom.mch] using hmch
        constructor
        · simpa [namesOf] using hlen2
        · rw [hu, hc, ← h1', hrv]
          simp [renderVals, namesOf]
      · cases hrec
    | param n =>
      simp only [toksOf] at h
      obtain ⟨c, cs, u', hs, hmch, hrec, hu⟩ := matchToks_one_inv _ _ _ _ _ h
      cases rest with
      | nil =>
        simp only [toksOf] at hrec
        rw [matchToks_grpPlus_end] at hrec
        split at hrec
        · cases hrec
        · injection hrec with h1
          injection h1 with h2 h3
          have h2' : List.takeWhile (clsOf n).mch cs = u' := h2
          have h3' : [List.takeWhile (clsOf n).mch cs] = gs := h3
          have hc : c = '/' := by simpa [CAtom.mch] using hmch
          constructor
          · rw [← h3']
            rfl
          · rw [hu, hc, ← h2', ← h3']
            simp [renderVals]
      | cons sg2 rest2 =>
        obtain ⟨T, hT⟩ := toksOf_cons_shape sg2 rest2
        rw [hT] at hrec
        rw [matchToks_grpPlus_next _ _ _ _ (clsOf_slash n)] at hrec
        split at hrec
        · cases hrec
        · rcases Option.map_eq_some'.1 hrec with ⟨⟨u2, gs2⟩, hm2, heq2⟩
          injection heq2 with h1 h2
          have h1' : List.takeWhile (clsOf n).mch cs ++ u2 = u' := h1
          have h2' : List.takeWhile (clsOf n).mch cs :: gs2 = gs := h2
          rw [← hT] at hm2
          obtain ⟨hlen2, hrv⟩ := ihr _ _ _ hm2
          have hc : c = '/' := by simpa [CAtom.mch] using hmch
          constructor
          · rw [← h2']
            simpa [namesOf] using hlen2
          · rw [hu, hc, ← h1', ← h2', hrv]
            simp [renderVals]

theorem lookupP_mapSet_eq (m : ParamsMap) (k v : GoStr) :
    lookupP (mapSet m k v) k = some v := by
  induction m with
  | nil => simp [mapSet, lookupP]
  | cons p rest ih =>
    rcases p with ⟨k', v'⟩
    simp only [mapSet]
    by_cases h : k' = k
    · rw [if_pos h]
      simp [lookupP]
    · rw [if_neg h]
      simp only [lookupP]
      rw [if_neg h]
      exact ih

theorem lookupP_mapSet_ne (m : ParamsMap) (k v k' : GoStr) (h : k ≠ k') :
    lookupP (mapSet m k v) k' = lookupP m k' := by
  induction m with
  | nil =>
    simp only [mapSet, lookupP]
    rw [if_neg h]
  | cons p rest ih =>
    rcases p with ⟨k2, v2⟩
    simp only [mapSet]
    by_cases h2 : k2 = k
    · rw [if_pos h2]
      simp only [lookupP]
      rw [if_neg h, if_neg (h2 ▸ h)]
    · rw [if_neg h2]
      simp only [lookupP]
      by_cases h3 : k2 = k'
      · rw [if_pos h3, if_pos h3]
      · rw [if_neg h3, if_neg h3]
        exact ih

theorem assignParams_preserve :
    ∀ (vs ns : List GoStr) (acc m : ParamsMap) (k : GoStr), k ∉ ns →
      assignParams ns vs acc = some m → lookupP m k = lookupP acc k := by
  intro vs
  induction vs with
  | nil =>
    intro ns acc m k hk h
    cases ns <;> (injection h with h1; rw [← h1])
  | cons v vs ih =>
    intro ns acc m k hk h
    cases ns with
    | nil => cases h
    | cons n ns' =>
      simp only [assignParams] at h
      have hk' : k ∉ ns' := fun hc => hk (List.mem_cons_of_mem _ hc)
      have hkn : n ≠ k := fun hc => hk (hc ▸ List.mem_cons_self n ns')
      rw [ih ns' _ m k hk' h]
      exact lookupP_mapSet_ne acc n v k hkn

theorem assignParams_zip :
    ∀ (vs ns : List GoStr) (acc m : ParamsMap), ns.Nodup →
      assignParams ns vs acc = some m →
      ∀ p ∈ ns.zip vs, lookupP m p.1 = some p.2 := by
  intro vs
  induction vs with
  | nil =>
    intro ns acc m hnd h p hp
    simp [List.zip_nil_right] at hp
  | cons v vs ih =>
    intro ns acc m hnd h p hp
    cases ns with
    | nil => simp at hp
    | cons n ns' =>
      simp only [assignParams] at h
      rcases List.mem_cons.1 hp with h1 | h2
      · subst h1
        have hnin : n ∉ ns' := (List.nodup_cons.1 hnd).1
        rw [assignParams_preserve vs ns' _ m n hnin h]
        exact lookupP_mapSet_eq acc n v
      · exact ih ns' _ m (List.nodup_cons.1 hnd).2 h p h2

/-- Stated from the claim: substitute each `:name` parameter segment of the
registered pattern by its captured value, leaving other segments unchanged. -/
def substSeg (m : ParamsMap) (seg : GoStr) : GoStr :=
  match seg with
  | ':' :: n => (lookupP m n).getD []
  | _ => seg

/-- Stated from the claim: rejoin the substituted segments with `/`. -/
def joinSlash : List GoStr → GoStr
  | [] => []
  | [x] => x
  | x :: rest => x ++ '/' :: joinSlash rest

/-- Stated from the claim: the registered pattern with every parameter
segment replaced by its captured value, in order. -/
def substPattern (path : GoStr) (m : ParamsMap) : GoStr :=
  joinSlash ((splitChar '/' path).map (substSeg m))

/-- Helper rendering of `/`-joined pieces. -/
def slashJoin : List GoStr → GoStr
  | [] => []
  | y :: ys => '/' :: (y ++ slashJoin ys)

theorem joinSlash_cons : ∀ (ys : List GoStr) (y : GoStr),
    joinSlash (y :: ys) = y ++ slashJoin ys := by
  intro ys
  induction ys with
  | nil => intro y; simp [joinSlash, slashJoin]
  | cons z zs ih =>
    intro y
    simp only [joinSlash, slashJoin]
    rw [ih z]

theorem substSeg_static (m : ParamsMap) (c0 : Char) (cs : GoStr) (h : c0 ≠ ':') :
    substSeg m (c0 :: cs) = c0 :: cs := by
  simp only [substSeg]
  split
  · rename_i n heq
    injection heq with hch
    exact absurd hch h
  · rfl

theorem slashJoin_subst (segs : List Seg) :
    ∀ (gs : List GoStr) (m : ParamsMap), (∀ sg ∈ segs, segWF sg) →
      gs.length = (namesOf segs).length →
      (∀ p ∈ (namesOf segs).zip gs, lookupP m p.1 = some p.2) →
      slashJoin ((segs.map segStr).map (substSeg m)) = renderVals segs gs := by
  induction segs with
  | nil =>
    intro gs m _ hlen _
    have : gs = [] := List.length_eq_zero.1 (by simpa [namesOf] using hlen)
    subst this
    rfl
  | cons sg rest ih =>
    intro gs m hwf hlen hlook
    have hw := hwf sg (List.mem_cons_self sg rest)
    have hwfr : ∀ s ∈ rest, segWF s := fun s hs => hwf s (List.mem_cons_of_mem _ hs)
    cases sg with
    | stat w =>
      cases hwcase : w with
      | nil => exact absurd hwcase hw.1
      | cons c0 cs =>
        subst hwcase
        simp only [List.map_cons, segStr, slashJoin, renderVals]
        rw [substSeg_static m c0 cs hw.2.2]
        rw [ih gs m hwfr (by simpa [namesOf] using hlen) (by simpa [namesOf] using hlook)]
    | param n =>
      cases gs with
      | nil => simp [namesOf] at hlen
      | cons v gs' =>
        simp only [List.map_cons, segStr, slashJoin, renderVals]
        have hv : lookupP m n = some v :=
          hlook (n, v) (by simp [namesOf])
        have hsub : substSeg m (':' :: n) = v := by
          simp only [substSeg, hv]
          rfl
        rw [hsub]
        rw [ih gs' m hwfr (by simpa [namesOf] using hlen)
          (fun p hp => hlook p (by simp [namesOf]; right; exact hp))]

/-- C9 (amended): for a slash-normalized registered pattern built from
well-formed static and `:name` segments with pairwise-distinct parameter
names, whenever dispatch-time matching succeeds, substituting the captured
parameter values back into the pattern reconstructs the request URL. -/
theorem claim9_amended_roundtrip (segs : List Seg) (url : GoStr) (m : ParamsMap)
    (hwf : ∀ sg ∈ segs, segWF sg) (hnd : (namesOf segs).Nodup)
    (hm : matchAndParse url (renderPath segs) = .matched m) :
    substPattern (renderPath segs) m = url := by
  rw [matchAndParse_eq_anchor url _ _ _ _ (compileRoute_renderPath segs hwf)
    (parseRegex_rxOf segs hwf)] at hm
  split at hm
  · rename_i p u gs heq
    split at hm
    · rename_i hu
      split at hm
      · cases hm
      · rename_i m' hassign
        injection hm with hmm
        subst hmm
        obtain ⟨hlen, hrv⟩ := matchToks_toksOf segs hwf url u gs heq
        rw [substPattern, splitChar_renderPath segs hwf]
        rw [List.map_cons, joinSlash_cons]
        rw [show substSeg m' [] = [] from rfl]
        rw [List.nil_append]
        rw [slashJoin_subst segs gs m' hwf hlen
          (assignParams_zip gs (namesOf segs) [] m' hnd hassign)]
        rw [← hrv, hu]
    · cases hm
  · cases hm

theorem litToks_append (a b : GoStr) : litToks (a ++ b) = litToks a ++ litToks b := by
  simp [litToks]

theorem toksOf_all_static (segs : List Seg) (hstat : ∀ sg ∈ segs, isStatSeg sg = true) :
    toksOf segs = litToks (renderPath segs) := by
  induction segs with
  | nil => rfl
  | cons sg rest ih =>
    cases sg with
    | param n => exact absurd (hstat _ (List.mem_cons_self _ _)) (by simp [isStatSeg])
    | stat w =>
      simp only [toksOf, renderPath, segStr]
      rw [ih (fun s hs => hstat s (List.mem_cons_of_mem _ hs))]
      rw [show ('/' :: (w ++ renderPath rest) : GoStr) = ['/'] ++ (w ++ renderPath rest) from rfl]
      rw [litToks_append, litToks_append]
      rfl

theorem namesOf_all_static (segs : List Seg) (hstat : ∀ sg ∈ segs, isStatSeg sg = true) :
    namesOf segs = [] := by
  induction segs with
  | nil => rfl
  | cons sg rest ih =>
    cases sg with
    | param n => exact absurd (hstat _ (List.mem_cons_self _ _)) (by simp [isStatSeg])
    | stat w =>
      simp only [namesOf]
      exact ih (fun s hs => hstat s (List.mem_cons_of_mem _ hs))

/-- C3 (amended): a purely static well-formed pattern (every segment free
of regex metacharacters) matches exactly the request URL that is
character-for-character identical to its normalized rendering, with an
empty parameter map. -/
theorem claim3_amended_plain_static_verbatim (segs : List Seg) (url : GoStr) (m : ParamsMap)
    (hstat : ∀ sg ∈ segs, isStatSeg sg = true) (hwf : ∀ sg ∈ segs, segWF sg) :
    matchAndParse url (renderPath segs) = .matched m ↔
      (url = renderPath segs ∧ m = []) := by
  rw [matchAndParse_eq_anchor url _ _ _ _ (compileRoute_renderPath segs hwf)
    (parseRegex_rxOf segs hwf)]
  rw [toksOf_all_static segs hstat, namesOf_all_static segs hstat]
  have hlit := matchToks_litToks (renderPath segs) [] url
  rw [List.append_nil] at hlit
  rw [hlit]
  by_cases hpre : (renderPath segs).isPrefixOf url
  · rw [if_pos hpre]
    simp only [matchToks, Option.map_some', List.append_nil]
    by_cases hu : renderPath segs = url
    · rw [if_pos hu]
      simp only [assignParams]
      constructor
      · intro h
        injection h with h1
        exact ⟨hu.symm, h1.symm⟩
      · rintro ⟨h1, h2⟩
        rw [h2]
    · rw [if_neg hu]
      constructor
      · intro h
        cases h
      · rintro ⟨h1, h2⟩
        exact absurd h1.symm hu
  · rw [if_neg hpre]
    constructor
    · intro h
      cases h
    · rintro ⟨h1, h2⟩
      rw [List.isPrefixOf_iff_prefix] at hpre
      exact absurd (h1 ▸ List.prefix_refl (renderPath segs)) hpre

/-- Witness for the amended C9 at pattern `/users/:id` and request
`/users/42`. -/
theorem claim9_amended_witness :
    (∀ sg ∈ [Seg.stat ("users".toList), Seg.param ("id".toList)], segWF sg) ∧
    (namesOf [Seg.stat ("users".toList), Seg.param ("id".toList)]).Nodup ∧
    matchAndParse ("/users/42".toList)
      (renderPath [Seg.stat ("users".toList), Seg.param ("id".toList)]) =
      .matched [("id".toList, "42".toList)] ∧
    substPattern (renderPath [Seg.stat ("users".toList), Seg.param ("id".toList)])
      [("id".toList, "42".toList)] = "/users/42".toList := by
  have hwf : ∀ sg ∈ [Seg.stat ("users".toList), Seg.param ("id".toList)], segWF sg := by
    intro sg hsg
    rcases List.mem_cons.1 hsg with h | h
    · subst h
      exact ⟨by decide, by decide, by decide⟩
    · rcases List.mem_cons.1 h with h2 | h2
      · subst h2
        exact ⟨by decide, by decide, by decide⟩
      · exact absurd h2 (List.not_mem_nil sg)
  have hnd : (namesOf [Seg.stat ("users".toList), Seg.param ("id".toList)]).Nodup := by
    simp [namesOf]
  have hm : matchAndParse ("/users/42".toList)
      (renderPath [Seg.stat ("users".toList), Seg.param ("id".toList)]) =
      .matched [("id".toList, "42".toList)] := by decide
  exact ⟨hwf, hnd, hm, claim9_amended_roundtrip _ _ _ hwf hnd hm⟩

/-- C9 counterexample: the registered pattern `users/:id` (no leading
slash) still matches the request `/users/42` with `id = "42"`, but
substituting the captured value back into the pattern yields `users/42`,
which does not reconstruct the request path. -/
theorem claim9_counterexample :
    matchAndParse ("/users/42".toList) ("users/:id".toList) =
      .matched [("id".toList, "42".toList)] ∧
    substPattern ("users/:id".toList) [("id".toList, "42".toList)] = "users/42".toList ∧
    ("users/42".toList : GoStr) ≠ "/users/42".toList := by
  refine ⟨by decide, by decide, by decide⟩

/-- Witness for the amended C3 at the static pattern `/static` and request
`/static`. -/
theorem claim3_amended_witness :
    (∀ sg ∈ [Seg.stat ("static".toList)], isStatSeg sg = true) ∧
    (∀ sg ∈ [Seg.stat ("static".toList)], segWF sg) ∧
    (matchAndParse ("/static".toList) (renderPath [Seg.stat ("static".toList)]) =
        .matched [] ↔
      ("/static".toList : GoStr) = renderPath [Seg.stat ("static".toList)] ∧
        ([] : ParamsMap) = []) := by
  have hstat : ∀ sg ∈ [Seg.stat ("static".toList)], isStatSeg sg = true := by
    intro sg hsg
    rcases List.mem_cons.1 hsg with h | h
    · subst h
      rfl
    · exact absurd h (List.not_mem_nil sg)
  have hwf : ∀ sg ∈ [Seg.stat ("static".toList)], segWF sg := by
    intro sg hsg
    rcases List.mem_cons.1 hsg with h | h
    · subst h
      exact ⟨by decide, by decide, by decide⟩
    · exact absurd h (List.not_mem_nil sg)
  exact ⟨hstat, hwf,
    claim3_amended_plain_static_verbatim [Seg.stat ("static".toList)]
      ("/static".toList) [] hstat hwf⟩
